import Mathlib

/-!
# Verification of the static-analysis engine of `ts-functions-visualisation`

This file gives a shallow embedding of the analysis engine found in the
repository's `analysis` module (`buildProjectAndAnalyze`, `analyzeDirectoryGraph`,
`analyzeWiringGraph`, `analyzeDirectoryModules` together with the helpers
`simplifyPath`, `shortHash`, `buildSignatureKey`, `getClassRole`, `unwrapAlias`).

Modelling conventions:

* JavaScript strings are modelled as Lean `String`s whose characters are
  UTF-16 code units inside the basic multilingual plane, so that
  `charCodeAt i` is `Char.toNat` of the i-th character.
* The TypeScript compiler services reached through `ts-morph`
  (`checker.getSymbolAtLocation`, `getAliasedSymbol`, `getType`,
  `type.getProperty`, parsing of source text) are external collaborators.
  Their answers are part of the input model: every call expression and every
  class-reference expression carries the list of declarations that the
  (alias-unwrapped) symbol resolves to.  An empty list models `undefined`
  symbols or symbols with no declarations; the source skips those.
* Machine integers in `shortHash` (`Math.imul`, `^`, `>>> 0`) are modelled as
  natural numbers with explicit reduction modulo `2 ^ 32`.
* JavaScript `Map` objects are modelled as association lists with the exact
  `Map.set` semantics (update in place for an existing key, append otherwise)
  so that both iteration order and last-write-wins lookups are preserved.
-/

namespace TsViz

/-! ## JavaScript `Map` semantics -/

/-- `Map.set`: replace the value of an existing key in place, otherwise append. -/
def jsMapSet {κ α : Type} [DecidableEq κ] (m : List (κ × α)) (k : κ) (v : α) :
    List (κ × α) :=
  if m.any (fun kv => kv.1 = k) then
    m.map (fun kv => if kv.1 = k then (k, v) else kv)
  else m ++ [(k, v)]

/-- `Map.get`: the value stored at a key (keys are unique after `jsMapSet`). -/
def jsMapGet {κ α : Type} [DecidableEq κ] (m : List (κ × α)) (k : κ) : Option α :=
  (m.find? (fun kv => kv.1 = k)).map (·.2)

/-- `Map.has`. -/
def jsMapHas {κ α : Type} [DecidableEq κ] (m : List (κ × α)) (k : κ) : Bool :=
  m.any (fun kv => kv.1 = k)

/-- `new Map(l.map(x => [key x, x]))`: the entry list obtained by `Map.set`
of every element keyed by `key`, in order. -/
def keyedMap {κ α : Type} [DecidableEq κ] (key : α → κ) (l : List α) :
    List (κ × α) :=
  l.foldl (fun m x => jsMapSet m (key x) x) []

/-- `Array.from(new Map(l.map(x => [key x, x])).values())`: deduplicate a list
by a key, keeping first-occurrence order of keys and the last value written
for each key.  This is the deduplication used by graph assembly. -/
def dedupByKey {κ α : Type} [DecidableEq κ] (key : α → κ) (l : List α) : List α :=
  (keyedMap key l).map (·.2)

/-! ## String helpers of the source -/

/-- Digit characters used by JavaScript `Number.prototype.toString(36)`:
`0`-`9` then lowercase `a`-`z`. -/
def base36Digit (n : Nat) : Char :=
  if n < 10 then Char.ofNat (48 + n) else Char.ofNat (87 + n)

/-- Digits of `n` in base 36, most significant first (accumulator form).
The first argument is structural fuel: each step strictly shrinks `n`, so any
fuel of at least `n` steps computes the full digit string; structural
recursion keeps the function kernel-reducible. -/
def toBase36Go : Nat → Nat → List Char → List Char
  | 0, _, acc => acc
  | _ + 1, 0, acc => acc
  | fuel + 1, n + 1, acc =>
    toBase36Go fuel ((n + 1) / 36) (base36Digit ((n + 1) % 36) :: acc)

/-- JavaScript `n.toString(36)` for a non-negative integer `n`. -/
def toBase36 (n : Nat) : String :=
  if n = 0 then "0" else ⟨toBase36Go (n + 1) n []⟩

/-- One step of the FNV-1a loop:
`h ^= input.charCodeAt(i); h = Math.imul(h, 16777619)`, as a value in
`[0, 2^32)`. -/
def fnvStep (h : Nat) (c : Char) : Nat :=
  ((h ^^^ c.toNat) * 16777619) % 4294967296

/-- `shortHash` from the source: 32-bit FNV-1a over the UTF-16 code units,
rendered in base 36 and truncated (`.slice(0, 6)`) to at most 6 characters. -/
def shortHash (input : String) : String :=
  ⟨(toBase36 (input.data.foldl fnvStep 2166136261)).data.take 6⟩

/-- JavaScript `s.split(sep)` for a one-character separator, over the
character list (kernel-reducible, unlike the iterator-based `String.splitOn`). -/
def splitOnChar (sep : Char) : List Char → List (List Char)
  | [] => [[]]
  | c :: t =>
    match splitOnChar sep t with
    | [] => [[]]
    | h :: r => if c = sep then [] :: h :: r else (c :: h) :: r

/-- `simplifyPath` from the source: keep path segments from the first `src`
segment on, otherwise the last (up to) three segments. -/
def simplifyPath (p : String) : String :=
  let parts := ((splitOnChar '/' p.data).map
    (fun l => (⟨l⟩ : String))).filter (fun s => s ≠ "")
  match parts.findIdx? (fun s => s = "src") with
  | some i => String.intercalate "/" (parts.drop i)
  | none => String.intercalate "/" (parts.drop (parts.length - 3))

/-- `ts-morph`'s `SourceFile.getBaseName`: the last `/`-separated component. -/
def baseNameOf (p : String) : String :=
  ⟨((splitOnChar '/' p.data).getLast?).getD []⟩

/-- JavaScript `s || dflt` for an optional string: `undefined` and the empty
string are both falsy. -/
def jsOrDefault (s? : Option String) (dflt : String) : String :=
  match s? with
  | some s => if s = "" then dflt else s
  | none => dflt

/-- Lower-case a string (the analysed regexes use ASCII letters only, so this
matches the behaviour of the `i` regex flag on them). -/
def lowerAscii (s : String) : String :=
  ⟨s.data.map Char.toLower⟩

/-- `needle` occurs as a contiguous substring of `hay`. -/
def listHasInfix (hay needle : List Char) : Bool :=
  match hay with
  | [] => needle.isEmpty
  | _ :: t => needle.isPrefixOf hay || listHasInfix t needle

/-- The regex test `/Module$/i` and friends: `s` ends with `pat`
case-insensitively (`pat` given in lower case). -/
def endsWithCI (s pat : String) : Bool :=
  pat.data.isSuffixOf (lowerAscii s).data

/-- The regex test `/\.module\./i`: `s` contains `.module.`
case-insensitively. -/
def hasModuleInfix (s : String) : Bool :=
  listHasInfix (lowerAscii s).data ".module.".data

/-- The regex test `/\.module\.(t|j)sx?$/` (case sensitive). -/
def moduleFileName (b : String) : Bool :=
  ".module.ts".data.isSuffixOf b.data || ".module.js".data.isSuffixOf b.data ||
    ".module.tsx".data.isSuffixOf b.data || ".module.jsx".data.isSuffixOf b.data

/-- `rawName.replace(/['"]/g, "")`: strip all single and double quotes. -/
def stripQuotes (s : String) : String :=
  ⟨s.data.filter (fun c => c ≠ '\'' && c ≠ '"')⟩

/-! ## The program model

The `Project` built by `buildProjectAndAnalyze` wraps the external parser and
type checker.  The model below records, per source file, exactly the syntactic
shape the analysis functions query, with checker answers (symbol resolution)
stored as oracle data at each use site. -/

/-- Identity of a function-like declaration node, as used for the
`callablesByDecl` map (the source keys that map by node reference; the spec's
design notes describe this as a stable index per declaration).  `nonCallable`
stands for any declaration node whose syntax kind is not
method / function declaration / function expression / arrow function, which
`matchCallableFromDecl` rejects. -/
inductive DeclRef where
  | fnDecl (fileIdx fnIdx : Nat)
  | methodDecl (fileIdx clsIdx mIdx : Nat)
  | propInit (fileIdx clsIdx propIdx : Nat)
  | varInit (fileIdx varIdx : Nat)
  | nonCallable (tag : Nat)
  deriving DecidableEq, Repr

/-- Result of resolving one declaration of a class-reference symbol:
either the declaration is itself a `ClassDeclaration` (addressed by file and
class index), or it sits inside one (`getFirstAncestorByKind`), or there is
no enclosing class declaration. -/
inductive ResDecl where
  | cls (fileIdx clsIdx : Nat)
  | inClass (fileIdx clsIdx : Nat)
  | noClass (tag : Nat)
  deriving DecidableEq, Repr

/-- A call expression inside a callable body.  `resolvedDecls` is the oracle
answer of lines 399-427 of the source: the declarations of the alias-unwrapped
symbol of the callee expression ( `[]` models a missing expression, an
unresolved symbol, or a symbol without declarations, all of which `continue`). -/
structure CallSiteM where
  resolvedDecls : List DeclRef
  deriving DecidableEq, Repr

/-- A parameter as seen by `buildSignatureKey`: the checker's type text if
available, with the parameter's own text as fallback. -/
structure ParamSig where
  typeText? : Option String
  text : String
  deriving DecidableEq, Repr

/-- Analysis-relevant content of a function-like declaration node. -/
structure FnBody where
  isAsync : Bool
  sigParams : List ParamSig
  calls : List CallSiteM
  deriving DecidableEq, Repr

/-- A top-level `FunctionDeclaration`. `name?` is `getName()`
(`none` = anonymous default export). -/
structure FnDeclM where
  name? : Option String
  body : FnBody
  deriving DecidableEq, Repr

/-- A `MethodDeclaration` of a class. -/
structure MethodDeclM where
  name? : Option String
  body : FnBody
  deriving DecidableEq, Repr

/-- An initializer expression of a property or variable declaration.
Only arrow functions and function expressions are collected; `funcExpr` also
carries its own optional name, which `buildSignatureKey` can observe. -/
inductive InitExpr where
  | arrow (body : FnBody)
  | funcExpr (name? : Option String) (body : FnBody)
  | otherInit
  deriving DecidableEq, Repr

/-- A class `PropertyDeclaration`. -/
structure PropDeclM where
  name? : Option String
  init? : Option InitExpr
  deriving DecidableEq, Repr

/-- A top-level `VariableDeclaration`. -/
structure VarDeclM where
  name? : Option String
  init? : Option InitExpr
  deriving DecidableEq, Repr

/-- One element of an array literal in module decorator metadata:
spread elements are skipped, other elements carry their symbol resolution. -/
inductive MetaElemM where
  | spread
  | elemE (res : List ResDecl)
  deriving DecidableEq, Repr

/-- The initializer of a metadata property: an array literal or any other
expression together with its symbol resolution. -/
inductive MetaInitM where
  | arrayLit (elems : List MetaElemM)
  | plainE (res : List ResDecl)
  deriving DecidableEq, Repr

/-- A property of the metadata object literal.  `propAssign` is a
`PropertyAssignment` with its raw (possibly quoted) name and its initializer;
everything else (shorthand, spread, methods) is skipped by the source. -/
inductive ObjPropM where
  | propAssign (rawName : String) (init? : Option MetaInitM)
  | otherProp
  deriving DecidableEq, Repr

/-- A decorator argument: an object literal (inspected by the wiring pass) or
any other expression with its symbol resolution (inspected by `@Inject`).
An object literal has no symbol, so its resolution is empty. -/
inductive DecoArgM where
  | objectLit (props : List ObjPropM)
  | resolvedE (res : List ResDecl)
  deriving DecidableEq, Repr

/-- Symbol resolution of a decorator argument (`getSymbolAtLocation` on the
argument expression). -/
def DecoArgM.res : DecoArgM → List ResDecl
  | .objectLit _ => []
  | .resolvedE r => r

/-- A decorator with its name and arguments. -/
structure DecoratorM where
  name? : Option String
  args : List DecoArgM
  deriving DecidableEq, Repr

/-- A constructor parameter as seen by the dependency-injection pass:
its decorators, and the declarations of the (alias-unwrapped) symbol of its
declared type (`p.getType().getSymbol()`, `[]` when there is none). -/
structure DIParamM where
  decos : List DecoratorM
  typeRes : List ResDecl
  deriving DecidableEq, Repr

/-- A `ConstructorDeclaration`. -/
structure CtorM where
  params : List DIParamM
  deriving DecidableEq, Repr

/-- A `ClassDeclaration`. -/
structure ClassDeclM where
  name? : Option String
  decos : List DecoratorM
  methods : List MethodDeclM
  props : List PropDeclM
  ctors : List CtorM
  deriving DecidableEq, Repr

/-- A parsed source file. -/
structure SourceFileM where
  filePath : String
  functions : List FnDeclM
  classes : List ClassDeclM
  varDecls : List VarDeclM
  deriving DecidableEq, Repr

/-- The in-memory project: the files created by `buildProjectAndAnalyze`. -/
structure ProjectM where
  files : List SourceFileM
  deriving DecidableEq, Repr

/-- `buildProjectAndAnalyze`: create one source file per map entry (keys of a
JavaScript `Map` are unique, so no overwriting occurs); parsing of the text is
the external parser, so the model receives the parsed shape directly. -/
def buildProjectAndAnalyze (filesByPath : List (String × SourceFileM)) : ProjectM :=
  { files := filesByPath.map (fun pf => { pf.2 with filePath := pf.1 }) }

/-- `project.getSourceFile(path)` together with the file's index (paths in the
model are the absolute virtual paths, which `ts-morph` matches exactly). -/
def ProjectM.getSourceFileIdx (proj : ProjectM) (p : String) :
    Option (Nat × SourceFileM) :=
  proj.files.enum.find? (fun isf => isf.2.filePath = p)

/-- Look up a class declaration by file and class index. -/
def ProjectM.getClass? (proj : ProjectM) (fileIdx clsIdx : Nat) :
    Option (SourceFileM × ClassDeclM) :=
  (proj.files.get? fileIdx).bind
    (fun sf => (sf.classes.get? clsIdx).map (fun c => (sf, c)))

/-! ## Graph data -/

/-- The externally visible node record (`from`/`to` renamed `fromId`/`toId`
because `from` is a Lean keyword). -/
structure GraphNode where
  id : String
  label : String
  kind : String
  isAsync? : Option Bool
  filePath : String
  fileKey : String
  className? : Option String
  role? : Option String
  deriving DecidableEq, Repr

/-- A directed edge between node ids. -/
structure GraphEdge where
  fromId : String
  toId : String
  crossFile : Bool
  deriving DecidableEq, Repr

/-- The assembled graph. -/
structure Graph where
  nodes : List GraphNode
  edges : List GraphEdge
  deriving DecidableEq, Repr

/-- Node deduplication key: the exact id. -/
def nodeKey (n : GraphNode) : String := n.id

/-- Edge deduplication key: the string `from + "|" + to`. -/
def edgeKey (e : GraphEdge) : String := e.fromId ++ "|" ++ e.toId

/-! ## `analyzeDirectoryGraph` -/

/-- `getClassRole` from the source: fixed-order rule list, each role matched by
decorator name or naming convention (`/Module$/i`, `/Controller$/i`,
`/Service$/i`, `/Provider$/i`, `/\.module\./i` on the base name). -/
def getClassRole (cls : ClassDeclM) (filePath : String) : Option String :=
  let name := jsOrDefault cls.name? ""
  let decos := cls.decos.map (·.name?)
  if decos.contains (some "Module") || endsWithCI name "module" ||
      hasModuleInfix (baseNameOf filePath) then some "module"
  else if decos.contains (some "Controller") || endsWithCI name "controller" then
    some "controller"
  else if decos.contains (some "Injectable") || endsWithCI name "service" then
    some "service"
  else if decos.contains (some "Injectable") || endsWithCI name "provider" then
    some "provider"
  else none

/-- `buildSignatureKey` from the source: declared name (or `<anon>` when the
node kind has no `getName`) followed by the parenthesized comma-joined
parameter type texts. -/
def buildSignatureKey (sigName? : Option String) (params : List ParamSig) : String :=
  let typeTexts := params.map (fun p => p.typeText?.getD p.text)
  (sigName?.getD "<anon>") ++ "(" ++ String.intercalate "," typeTexts ++ ")"

/-- `idFor` from the source: `filePath + "#" + name + "::" + shortHash(sig)`. -/
def idFor (filePath name : String) (signatureText? : Option String) : String :=
  let sig := signatureText?.getD name
  filePath ++ "#" ++ name ++ "::" ++ shortHash sig

/-- `fileKeyFor` from the source. -/
def fileKeyFor (p : String) : String :=
  simplifyPath p ++ "#" ++ shortHash p

/-- The `CallableInfo` record of the source.  `decl` is the declaration-node
identity used as map key; `body` models the retained node reference that
step 2 walks for call expressions.  `qualName` and `sigKey` record the
components from which `id` was built (the source computes them inline in
`addCallable`); they are not read by any later analysis step. -/
structure CallableInfo where
  id : String
  name : String
  filePath : String
  fileKey : String
  className? : Option String
  decl : DeclRef
  isAsync : Bool
  kind : String
  role? : Option String
  body : FnBody
  qualName : String
  sigKey : String
  deriving DecidableEq, Repr

/-- `addCallable` from the source: build the `CallableInfo` for one
declaration.  The qualified name is `className.name` when the class name is
truthy (JavaScript conditional), else just the name; missing names become
`<anon>`. -/
def mkCallableInfo (filePath : String) (declRef : DeclRef) (kindStr : String)
    (sigName? : Option String) (body : FnBody) (name? : Option String)
    (className? : Option String) (role? : Option String) : CallableInfo :=
  let signatureKey := buildSignatureKey sigName? body.sigParams
  let nm := name?.getD "<anon>"
  let qual :=
    match className? with
    | some c => if c = "" then nm else c ++ "." ++ nm
    | none => nm
  { id := idFor filePath qual (some signatureKey)
    name := nm
    filePath := filePath
    fileKey := fileKeyFor filePath
    className? := className?
    decl := declRef
    isAsync := body.isAsync
    kind := kindStr
    role? := role?
    body := body
    qualName := qual
    sigKey := signatureKey }

/-- Collection pass of `analyzeDirectoryGraph` for one source file: top-level
functions (role `helper`), then per class its methods and function-valued
property initializers (role = class role), then top-level function-valued
variable initializers (role `helper`). -/
def collectFile (fileIdx : Nat) (sf : SourceFileM) : List CallableInfo :=
  let fns := sf.functions.enum.map (fun jfn =>
    mkCallableInfo sf.filePath (.fnDecl fileIdx jfn.1) "FunctionDeclaration"
      jfn.2.name? jfn.2.body (some (jsOrDefault jfn.2.name? "<anon>")) none
      (some "helper"))
  let clsCallables := sf.classes.enum.flatMap (fun icls =>
    let cls := icls.2
    let clsRole := getClassRole cls sf.filePath
    let ms := cls.methods.enum.map (fun im =>
      mkCallableInfo sf.filePath (.methodDecl fileIdx icls.1 im.1)
        "MethodDeclaration" im.2.name? im.2.body im.2.name? cls.name? clsRole)
    let ps := cls.props.enum.filterMap (fun ip =>
      match ip.2.init? with
      | some (.arrow body) =>
        some (mkCallableInfo sf.filePath (.propInit fileIdx icls.1 ip.1)
          "ArrowFunction" none body ip.2.name? cls.name? clsRole)
      | some (.funcExpr n? body) =>
        some (mkCallableInfo sf.filePath (.propInit fileIdx icls.1 ip.1)
          "FunctionExpression" n? body ip.2.name? cls.name? clsRole)
      | _ => none)
    ms ++ ps)
  let vars := sf.varDecls.enum.filterMap (fun iv =>
    match iv.2.init? with
    | some (.arrow body) =>
      some (mkCallableInfo sf.filePath (.varInit fileIdx iv.1) "ArrowFunction"
        none body iv.2.name? none (some "helper"))
    | some (.funcExpr n? body) =>
      some (mkCallableInfo sf.filePath (.varInit fileIdx iv.1)
        "FunctionExpression" n? body iv.2.name? none (some "helper"))
    | _ => none)
  fns ++ clsCallables ++ vars

/-- Step 1 of `analyzeDirectoryGraph`: collect callables over the listed file
paths, silently skipping paths with no source file. -/
def collectCallables (proj : ProjectM) (filePaths : List String) :
    List CallableInfo :=
  filePaths.flatMap (fun p =>
    match proj.getSourceFileIdx p with
    | some isf => collectFile isf.1 isf.2
    | none => [])

/-- The `callablesByDecl` map, built by the same `Map.set` calls as the
collection pass performs. -/
def callablesByDecl (callables : List CallableInfo) :
    List (DeclRef × CallableInfo) :=
  callables.foldl (fun m c => jsMapSet m c.decl c) []

/-- `matchCallableFromDecl`: only function-like node kinds are looked up. -/
def matchCallableFromDecl (byDecl : List (DeclRef × CallableInfo)) (d : DeclRef) :
    Option CallableInfo :=
  match d with
  | .nonCallable _ => none
  | d => jsMapGet byDecl d

/-- Step 2 of `analyzeDirectoryGraph`: for every call expression of every
callable, take the first resolved declaration matching a known callable and
emit a call edge unless caller and callee ids coincide. -/
def callEdges (callables : List CallableInfo)
    (byDecl : List (DeclRef × CallableInfo)) : List GraphEdge :=
  callables.flatMap (fun caller =>
    caller.body.calls.filterMap (fun call =>
      match call.resolvedDecls.findSome? (matchCallableFromDecl byDecl) with
      | none => none
      | some calleeInfo =>
        if caller.id ≠ calleeInfo.id then
          some { fromId := caller.id, toId := calleeInfo.id,
                 crossFile := decide
                   (simplifyPath caller.filePath ≠ simplifyPath calleeInfo.filePath) }
        else none))

/-- Step 3 of `analyzeDirectoryGraph`: project each callable to a node. -/
def nodeOfCallable (c : CallableInfo) : GraphNode :=
  { id := c.id, label := c.name, kind := c.kind, isAsync? := some c.isAsync,
    filePath := c.filePath, fileKey := c.fileKey, className? := c.className?,
    role? := c.role? }

/-- `analyzeDirectoryGraph`: collect, resolve calls, emit nodes, deduplicate. -/
def analyzeDirectoryGraph (proj : ProjectM) (filePaths : List String) : Graph :=
  let callables := collectCallables proj filePaths
  let byDecl := callablesByDecl callables
  let edges := callEdges callables byDecl
  let nodes := callables.map nodeOfCallable
  { nodes := dedupByKey nodeKey nodes, edges := dedupByKey edgeKey edges }

/-! ## `analyzeDirectoryModules` -/

/-- The module nodes contributed by one listed file path
(`analyzeDirectoryModules` body). -/
def moduleNodesOfFile (proj : ProjectM) (p : String) : List GraphNode :=
  match proj.getSourceFileIdx p with
  | none => []
  | some isf =>
    let sf := isf.2
    sf.classes.filterMap (fun cls =>
      let hasModuleDecorator := cls.decos.any (fun d => d.name? == some "Module")
      let fileNameIndicatesModule := moduleFileName (baseNameOf sf.filePath)
      if !hasModuleDecorator && !fileNameIndicatesModule then none
      else
        let name := jsOrDefault cls.name? "<Module>"
        some { id := sf.filePath ++ "#" ++ name, label := name,
               kind := "ClassDeclaration", isAsync? := some false,
               filePath := sf.filePath, fileKey := simplifyPath sf.filePath,
               className? := none, role? := some "module" })

/-- `analyzeDirectoryModules`: one node per class with a `Module` decorator or
a `*.module.*` file name, no edges, nodes deduplicated by id. -/
def analyzeDirectoryModules (proj : ProjectM) (filePaths : List String) : Graph :=
  { nodes := dedupByKey nodeKey (filePaths.flatMap (moduleNodesOfFile proj))
    edges := [] }

/-! ## `analyzeWiringGraph` -/

/-- A resolved `ClassDeclaration` node handle: its address in the project, the
declaration itself, and its source file's path (the data the wiring pass reads
off the node). -/
structure ClassRefM where
  fileIdx : Nat
  clsIdx : Nat
  cls : ClassDeclM
  filePath : String
  deriving DecidableEq, Repr

/-- Map one resolved declaration to its `ClassDeclaration`, if any
(`Node.isClassDeclaration(d) ? d : d.getFirstAncestorByKind(ClassDeclaration)`).
The checker only returns declarations of the project, so out-of-range oracle
data resolves to nothing. -/
def resolveClassHandle (proj : ProjectM) : ResDecl → Option ClassRefM
  | .cls fi ci => (proj.getClass? fi ci).map (fun sfc =>
      ⟨fi, ci, sfc.2, sfc.1.filePath⟩)
  | .inClass fi ci => (proj.getClass? fi ci).map (fun sfc =>
      ⟨fi, ci, sfc.2, sfc.1.filePath⟩)
  | .noClass _ => none

/-- `pushIfClass` lifted over one class-reference expression: one class per
declaration of the symbol (no early exit). -/
def classesOfRes (proj : ProjectM) (res : List ResDecl) : List ClassRefM :=
  res.filterMap (resolveClassHandle proj)

/-- `collectClasses` of the source: array literals are flattened
(spread elements skipped), other expressions resolved directly. -/
def collectClassesM (proj : ProjectM) : MetaInitM → List ClassRefM
  | .arrayLit elems => elems.flatMap (fun el =>
      match el with
      | .spread => []
      | .elemE res => classesOfRes proj res)
  | .plainE res => classesOfRes proj res

/-- `moduleKeyFor` of the source:
`moduleName + " (" + simplifyPath(fp) + "#" + shortHash(fp) + ")"`. -/
def moduleKeyFor (fp moduleName : String) : String :=
  moduleName ++ " (" ++ simplifyPath fp ++ "#" ++ shortHash fp ++ ")"

/-- The wiring node id of a class: `filePath + "#" + name + "::" +
shortHash(name)` with `<Class>` for missing names (`classNodeId` in the
source). -/
def classNodeId (fp : String) (name? : Option String) : String :=
  let name := jsOrDefault name? "<Class>"
  fp ++ "#" ++ name ++ "::" ++ shortHash name

/-- The wiring node id of a module class (same shape, `<Module>` default). -/
def moduleNodeId (fp : String) (name? : Option String) : String :=
  let name := jsOrDefault name? "<Module>"
  fp ++ "#" ++ name ++ "::" ++ shortHash name

/-- `roleFor` of the source: `Controller` decorator wins, then `Injectable`
(service), else provider. -/
def roleFor (cls : ClassDeclM) : String :=
  let decos := cls.decos.map (·.name?)
  if decos.contains (some "Controller") then "controller"
  else if decos.contains (some "Injectable") then "service"
  else "provider"

/-- The `ModuleInfo` record of the source. -/
structure ModuleInfoM where
  id : String
  name : String
  filePath : String
  fileKey : String
  controllers : List ClassRefM
  providers : List ClassRefM
  importedModules : List ClassRefM
  deriving DecidableEq, Repr

/-- One property of the metadata object literal: dispatch on the stripped key
name and append the resolved classes to the corresponding list. -/
def readMetaProp (proj : ProjectM) (info : ModuleInfoM) (p : ObjPropM) :
    ModuleInfoM :=
  match p with
  | .otherProp => info
  | .propAssign rawName init? =>
    match init? with
    | none => info
    | some init =>
      let keyName := stripQuotes rawName
      if keyName = "imports" then
        { info with importedModules :=
            info.importedModules ++ collectClassesM proj init }
      else if keyName = "controllers" then
        { info with controllers := info.controllers ++ collectClassesM proj init }
      else if keyName = "providers" || keyName = "exports" then
        { info with providers := info.providers ++ collectClassesM proj init }
      else info

/-- Read the three metadata lists out of a module decorator's first argument
(object literal only; quoted key spellings are stripped). -/
def readModuleMeta (proj : ProjectM) (info : ModuleInfoM)
    (metaArg? : Option DecoArgM) : ModuleInfoM :=
  match metaArg? with
  | some (.objectLit props) => props.foldl (readMetaProp proj) info
  | _ => info

/-- Phase-1 state of `analyzeWiringGraph`: the `modules` list and the node
map `byId` (the `nodes`/`edges` arrays are untouched in this phase). -/
structure WiringScanState where
  modules : List ModuleInfoM
  byId : List (String × GraphNode)
  deriving DecidableEq, Repr

/-- Phase 1, one class: detect a module (decorator or file naming convention),
read its metadata, record the `ModuleInfo` and register the module node. -/
def scanModuleClass (proj : ProjectM) (sf : SourceFileM) (st : WiringScanState)
    (cls : ClassDeclM) : WiringScanState :=
  let moduleDecorator := cls.decos.find? (fun d => d.name? == some "Module")
  let fileNameIndicatesModule := moduleFileName (baseNameOf sf.filePath)
  if moduleDecorator.isNone && !fileNameIndicatesModule then st
  else
    let moduleName := jsOrDefault cls.name? "<Module>"
    let id := sf.filePath ++ "#" ++ moduleName ++ "::" ++ shortHash moduleName
    let groupKey := moduleKeyFor sf.filePath moduleName
    let info0 : ModuleInfoM :=
      { id := id, name := moduleName, filePath := sf.filePath,
        fileKey := groupKey, controllers := [], providers := [],
        importedModules := [] }
    let info := readModuleMeta proj info0 (moduleDecorator.bind (·.args.head?))
    let moduleNode : GraphNode :=
      { id := id, label := moduleName, kind := "ClassDeclaration",
        isAsync? := some false, filePath := sf.filePath, fileKey := groupKey,
        className? := none, role? := some "module" }
    { modules := st.modules ++ [info],
      byId := jsMapSet st.byId moduleNode.id moduleNode }

/-- Phase 1 over the listed file paths. -/
def scanModules (proj : ProjectM) (filePaths : List String) : WiringScanState :=
  filePaths.foldl (fun st p =>
    match proj.getSourceFileIdx p with
    | none => st
    | some isf => isf.2.classes.foldl (scanModuleClass proj isf.2) st)
    ⟨[], []⟩

/-- Phase-2/3 state: the node map and the raw `nodes`/`edges` arrays. -/
structure WiringState where
  byId : List (String × GraphNode)
  nodes : List GraphNode
  edges : List GraphEdge
  deriving DecidableEq, Repr

/-- `ensureNode` of the source: create (or re-push) the node for a contained
class and record the containment edge. -/
def ensureNodeStep (m : ModuleInfoM) (sectionLabel : String) (st : WiringState)
    (c : ClassRefM) : WiringState :=
  let id := classNodeId c.filePath c.cls.name?
  let st' :=
    if !jsMapHas st.byId id then
      let node : GraphNode :=
        { id := id, label := jsOrDefault c.cls.name? "<Class>",
          kind := "ClassDeclaration", isAsync? := none, filePath := c.filePath,
          fileKey := m.fileKey, className? := some sectionLabel,
          role? := some (roleFor c.cls) }
      { st with byId := jsMapSet st.byId id node, nodes := st.nodes ++ [node] }
    else if st.nodes.all (fun n => n.id ≠ id) then
      match jsMapGet st.byId id with
      | some n => { st with nodes := st.nodes ++ [n] }
      | none => st
    else st
  { st' with edges := st'.edges ++
      [{ fromId := m.id, toId := id,
         crossFile := decide (simplifyPath m.filePath ≠ simplifyPath c.filePath) }] }

/-- The import-edge step of the source's module loop. -/
def importStep (m : ModuleInfoM) (st : WiringState) (im : ClassRefM) :
    WiringState :=
  let modName := jsOrDefault im.cls.name? "<Module>"
  let targetId := im.filePath ++ "#" ++ modName ++ "::" ++ shortHash modName
  let st' :=
    if !jsMapHas st.byId targetId then
      let modNode : GraphNode :=
        { id := targetId, label := modName, kind := "ClassDeclaration",
          isAsync? := some false, filePath := im.filePath,
          fileKey := moduleKeyFor im.filePath modName, className? := none,
          role? := some "module" }
      { st with byId := jsMapSet st.byId targetId modNode
                nodes := st.nodes ++ [modNode] }
    else st
  { st' with edges := st'.edges ++
      [{ fromId := m.id, toId := targetId,
         crossFile := decide
           (simplifyPath m.filePath ≠ simplifyPath im.filePath) }] }

/-- One iteration of the module loop: push the module node, process
controllers, providers and imports. -/
def processModule (st : WiringState) (m : ModuleInfoM) : WiringState :=
  let st :=
    match jsMapGet st.byId m.id with
    | some n => { st with nodes := st.nodes ++ [n] }
    | none => st
  let st := m.controllers.foldl (ensureNodeStep m "Controllers") st
  let st := m.providers.foldl (ensureNodeStep m "Providers") st
  m.importedModules.foldl (importStep m) st

/-- The `classDeclsById` map: for each controller/service/provider class node,
find the class declaration of its id back in its source file. -/
def classDeclsById (proj : ProjectM) (nodes : List GraphNode) :
    List (String × ClassDeclM) :=
  nodes.foldl (fun m n =>
    if (n.role? == some "controller" || n.role? == some "service" ||
        n.role? == some "provider") && n.kind == "ClassDeclaration" then
      match proj.getSourceFileIdx n.filePath with
      | none => m
      | some isf =>
        match isf.2.classes.find? (fun c =>
            classNodeId isf.2.filePath c.name? == n.id) with
        | none => m
        | some cls => jsMapSet m n.id cls
    else m) []

/-- Resolve the injection target of one constructor parameter: the `@Inject`
token argument first, the declared parameter type otherwise (first matching
class declaration in both cases). -/
def diTargetOfParam (proj : ProjectM) (p : DIParamM) : Option ClassRefM :=
  let injTarget :=
    ((p.decos.find? (fun d => d.name? == some "Inject")).bind
      (fun inj => inj.args.head?)).bind
      (fun arg => arg.res.findSome? (resolveClassHandle proj))
  match injTarget with
  | some t => some t
  | none => p.typeRes.findSome? (resolveClassHandle proj)

/-- The injection edges of one class: only the first declared constructor is
inspected; a class with no constructor yields no edges. -/
def diEdgesForClass (proj : ProjectM) (byId : List (String × GraphNode))
    (id : String) (cls : ClassDeclM) : List GraphEdge :=
  match cls.ctors.head? with
  | none => []
  | some ctor =>
    ctor.params.filterMap (fun p =>
      match diTargetOfParam proj p with
      | none => none
      | some target =>
        let toId := classNodeId target.filePath target.cls.name?
        if jsMapHas byId toId then
          match jsMapGet byId id, jsMapGet byId toId with
          | some fromNode, some toNode =>
            some { fromId := fromNode.id, toId := toNode.id,
                   crossFile := decide
                     (simplifyPath fromNode.filePath ≠ simplifyPath toNode.filePath) }
          | _, _ => none
        else none)

/-- Phase 3: the dependency-injection edges, in `classDeclsById` order. -/
def diEdges (proj : ProjectM) (byId : List (String × GraphNode))
    (classesById : List (String × ClassDeclM)) : List GraphEdge :=
  classesById.flatMap (fun kv => diEdgesForClass proj byId kv.1 kv.2)

/-- The state reached after the module loop of `analyzeWiringGraph` (exposed
for the statements below). -/
def wiringState (proj : ProjectM) (filePaths : List String) : WiringState :=
  (scanModules proj filePaths).modules.foldl processModule
    ⟨(scanModules proj filePaths).byId, [], []⟩

/-- `analyzeWiringGraph`: module scan, module loop, DI pass, deduplication. -/
def analyzeWiringGraph (proj : ProjectM) (filePaths : List String) : Graph :=
  let st := wiringState proj filePaths
  let classesById := classDeclsById proj st.nodes
  let allEdges := st.edges ++ diEdges proj st.byId classesById
  { nodes := dedupByKey nodeKey st.nodes, edges := dedupByKey edgeKey allEdges }

/-! ## Well-formed names

Node ids concatenate a file path, a qualified name and a hash with `#` and
`::` separators.  Declared names in TypeScript are identifiers (or the
source's placeholder strings `<anon>`, `<Module>`, `<Class>`), none of which
can contain `#` or `:`; the predicates below state exactly that for a model,
making the id format unambiguous. -/

/-- A character legal inside a declared name for unambiguous id parsing. -/
def cleanChar (c : Char) : Bool := c ≠ '#' && c ≠ ':'

/-- All characters of `s` are clean. -/
def cleanStr (s : String) : Bool := s.data.all cleanChar

/-- An optional name is clean when present. -/
def cleanOpt (s? : Option String) : Bool :=
  match s? with
  | none => true
  | some s => cleanStr s

/-- All declared names of a class (its own, its methods', its properties')
are clean. -/
def cleanClass (c : ClassDeclM) : Bool :=
  cleanOpt c.name? && c.methods.all (fun m => cleanOpt m.name?) &&
    c.props.all (fun p => cleanOpt p.name?)

/-- All declared names of a file are clean. -/
def cleanFile (sf : SourceFileM) : Bool :=
  sf.functions.all (fun f => cleanOpt f.name?) && sf.classes.all cleanClass &&
    sf.varDecls.all (fun v => cleanOpt v.name?)

/-- All declared names of the project are clean (true of every TypeScript
program whose member names are ordinary identifiers). -/
def cleanProject (proj : ProjectM) : Bool :=
  proj.files.all cleanFile

/-- `s` contains neither `#` nor `:`. -/
def sepFree (s : String) : Prop := '#' ∉ s.data ∧ ':' ∉ s.data

/-- `i` is a node id of the shape `fp ++ "#" ++ name ++ "::" ++ hash` with a
separator-free name and hash, so that `fp` is recoverable from `i`. -/
def IdShape (i fp : String) : Prop :=
  ∃ q g, sepFree q ∧ sepFree g ∧ i = fp ++ "#" ++ q ++ "::" ++ g

/-- The node's id parses back to its recorded file path. -/
def NodeIdOk (n : GraphNode) : Prop := IdShape n.id n.filePath

/-- The node's role is one of the four wiring roles. -/
def Role4 (n : GraphNode) : Prop :=
  n.role? = some "module" ∨ n.role? = some "controller" ∨
    n.role? = some "service" ∨ n.role? = some "provider"

/-- A well-formed entry of the wiring node map. -/
def EntryOk (kv : String × GraphNode) : Prop :=
  kv.2.id = kv.1 ∧ NodeIdOk kv.2 ∧ Role4 kv.2

/-- A well-formed wiring node map: well-formed entries with unique keys. -/
def ByIdOk (byId : List (String × GraphNode)) : Prop :=
  (∀ kv ∈ byId, EntryOk kv) ∧ (byId.map (·.1)).Nodup

/-- The edge's endpoints are keys of the node map and its `crossFile` flag
was computed from the mapped nodes' file paths. -/
def EdgeOk (byId : List (String × GraphNode)) (e : GraphEdge) : Prop :=
  ∃ vf vt, (e.fromId, vf) ∈ byId ∧ (e.toId, vt) ∈ byId ∧
    e.crossFile = decide (simplifyPath vf.filePath ≠ simplifyPath vt.filePath)

/-- A resolved class handle with a clean declared name. -/
def RefClean (c : ClassRefM) : Prop := cleanOpt c.cls.name? = true

/-- A well-formed module record: parseable id and clean referenced classes. -/
def ModOk (m : ModuleInfoM) : Prop :=
  IdShape m.id m.filePath ∧
    ∀ c ∈ m.controllers ++ m.providers ++ m.importedModules, RefClean c

/-- Invariant of the wiring module loop, relative to the scanned node map
`byId0`. -/
def WInv (byId0 : List (String × GraphNode)) (st : WiringState) : Prop :=
  ByIdOk st.byId ∧ (∀ kv ∈ byId0, kv ∈ st.byId) ∧
    (∀ n ∈ st.nodes, (n.id, n) ∈ st.byId) ∧ (∀ e ∈ st.edges, EdgeOk st.byId e)

/-- Invariant of the wiring module scan: well-formed module-node entries with
unique keys, each backed by a recorded module; well-formed module records. -/
def ScanInv (st : WiringScanState) : Prop :=
  (∀ kv ∈ st.byId, EntryOk kv ∧ kv.2.role? = some "module" ∧
    ∃ m ∈ st.modules, m.id = kv.1) ∧
  (st.byId.map (·.1)).Nodup ∧
  (∀ m ∈ st.modules, ModOk m ∧ jsMapHas st.byId m.id = true)

/-! ## Concrete example models

Small inputs used to witness the theorems below and to exhibit
counterexamples.  `exDirProj` is the spec's Scenario 1 (a `helper` function
called from `main` in one file, plus a second file calling across files). -/

/-- A function body with no calls and no parameters. -/
def emptyBody : FnBody := { isAsync := false, sigParams := [], calls := [] }

/-- A body containing one call that resolves to the given declaration. -/
def callBody (d : DeclRef) : FnBody :=
  { isAsync := false, sigParams := [], calls := [{ resolvedDecls := [d] }] }

/-- File `/proj/src/a.ts`: `function helper(){}` and
`function main(){ helper(); }`. -/
def exFileA : SourceFileM :=
  { filePath := "/proj/src/a.ts"
    functions := [ { name? := some "helper", body := emptyBody },
                   { name? := some "main", body := callBody (.fnDecl 0 0) } ]
    classes := [], varDecls := [] }

/-- File `/proj/src/b.ts`: `function run(){ helper(); }` calling into `a.ts`. -/
def exFileB : SourceFileM :=
  { filePath := "/proj/src/b.ts"
    functions := [ { name? := some "run", body := callBody (.fnDecl 0 0) } ]
    classes := [], varDecls := [] }

/-- The two-file example project. -/
def exDirProj : ProjectM := { files := [exFileA, exFileB] }

/-- The file list of the two-file example. -/
def exDirPaths : List String := ["/proj/src/a.ts", "/proj/src/b.ts"]

/-- A file with two function declarations both named `f` with no parameters
(as produced by an overload signature plus its implementation): both receive
the same identifier. -/
def exDupFile : SourceFileM :=
  { filePath := "/proj/src/dup.ts"
    functions := [ { name? := some "f", body := emptyBody },
                   { name? := some "f", body := emptyBody } ]
    classes := [], varDecls := [] }

/-- Project around `exDupFile`. -/
def exDupProj : ProjectM := { files := [exDupFile] }

/-- A class named `XModule` carrying a `@Controller()` decorator: the name
suffix wins over the decorator in `getClassRole`. -/
def exRoleCls : ClassDeclM :=
  { name? := some "XModule", decos := [ { name? := some "Controller", args := [] } ]
    methods := [], props := [], ctors := [] }

/-- A class named `X` carrying a `@Controller()` decorator. -/
def exCtrlCls : ClassDeclM :=
  { name? := some "X", decos := [ { name? := some "Controller", args := [] } ]
    methods := [], props := [], ctors := [] }

/-- A module class whose metadata imports the module itself
(`@Module({ imports: [AppModule] }) class AppModule`). -/
def exSelfModCls : ClassDeclM :=
  { name? := some "AppModule"
    decos := [ { name? := some "Module"
                 args := [ .objectLit [ .propAssign "imports"
                   (some (.plainE [ .cls 0 0 ])) ] ] } ]
    methods := [], props := [], ctors := [] }

/-- Project with the self-importing module. -/
def exSelfImportProj : ProjectM :=
  { files := [ { filePath := "/src/app.module.ts", functions := []
                 classes := [exSelfModCls], varDecls := [] } ] }

/-- The file list of the self-import example. -/
def exSelfImportPaths : List String := ["/src/app.module.ts"]

/-- `UserService` with an `@Injectable()` decorator. -/
def exServiceCls : ClassDeclM :=
  { name? := some "UserService", decos := [ { name? := some "Injectable", args := [] } ]
    methods := [], props := [], ctors := [] }

/-- `UserController` whose single constructor takes a parameter whose declared
type resolves to `UserService` (class index 2 of file 0). -/
def exCtrlDICls : ClassDeclM :=
  { name? := some "UserController"
    decos := [ { name? := some "Controller", args := [] } ]
    methods := [], props := []
    ctors := [ { params := [ { decos := [], typeRes := [ .cls 0 2 ] } ] } ] }

/-- `AppModule` with `controllers: [UserController]`,
`providers: [UserService]`; `BModule` (class index 3) is listed among the
controllers as well, exhibiting a containment edge onto a module node. -/
def exWirModCls : ClassDeclM :=
  { name? := some "AppModule"
    decos := [ { name? := some "Module"
                 args := [ .objectLit
                   [ .propAssign "controllers"
                       (some (.arrayLit [ .elemE [ .cls 0 1 ], .elemE [ .cls 0 3 ] ]))
                     , .propAssign "providers"
                       (some (.plainE [ .cls 0 2 ])) ] ] } ]
    methods := [], props := [], ctors := [] }

/-- A second module class, referenced as a "controller" by `exWirModCls`. -/
def exBModCls : ClassDeclM :=
  { name? := some "BModule"
    decos := [ { name? := some "Module", args := [] } ]
    methods := [], props := [], ctors := [] }

/-- The wiring example project: one file with the module, the controller, the
service and the second module. -/
def exWirProj : ProjectM :=
  { files := [ { filePath := "/src/app.ts", functions := []
                 classes := [exWirModCls, exCtrlDICls, exServiceCls, exBModCls]
                 varDecls := [] } ] }

/-- The file list of the wiring example. -/
def exWirPaths : List String := ["/src/app.ts"]

/-- Placeholder edge for total list indexing in the examples. -/
def eDefault : GraphEdge := { fromId := "", toId := "", crossFile := false }

/-- Placeholder node for total list indexing in the examples. -/
def nDefault : GraphNode :=
  { id := "", label := "", kind := "", isAsync? := none, filePath := ""
    fileKey := "", className? := none, role? := none }

/-- Placeholder callable for total list indexing in the examples. -/
def cDefault : CallableInfo :=
  mkCallableInfo "" (.nonCallable 0) "" none ⟨false, [], []⟩ none none none

/-- Placeholder class handle. -/
def crDefault : ClassRefM :=
  { fileIdx := 0, clsIdx := 0
    cls := { name? := none, decos := [], methods := [], props := [], ctors := [] }
    filePath := "" }

/-- Placeholder module record. -/
def mDefault : ModuleInfoM :=
  { id := "", name := "", filePath := "", fileKey := "", controllers := []
    providers := [], importedModules := [] }

/-- The assembled two-file call graph. -/
def exDirGraph : Graph := analyzeDirectoryGraph exDirProj exDirPaths

/-- Its first edge (`main → helper`, same file). -/
def exDirE0 : GraphEdge := (exDirGraph.edges.get? 0).getD eDefault

/-- Its second edge (`run → helper`, cross-file). -/
def exDirE1 : GraphEdge := (exDirGraph.edges.get? 1).getD eDefault

/-- The node of `helper`. -/
def exDirN0 : GraphNode := (exDirGraph.nodes.get? 0).getD nDefault

/-- The node of `run`. -/
def exDirN2 : GraphNode := (exDirGraph.nodes.get? 2).getD nDefault

/-- The callables of the duplicate-`f` example. -/
def exDupCallables : List CallableInfo :=
  collectCallables exDupProj ["/proj/src/dup.ts"]

/-- Its first collected callable. -/
def exDupC0 : CallableInfo := (exDupCallables.get? 0).getD cDefault

/-- Its second collected callable. -/
def exDupC1 : CallableInfo := (exDupCallables.get? 1).getD cDefault

/-- The module record of `AppModule` in the wiring example. -/
def exWirM0 : ModuleInfoM :=
  ((scanModules exWirProj exWirPaths).modules.get? 0).getD mDefault

/-- The class handle of `UserController` in `AppModule`'s controllers. -/
def exWirC0 : ClassRefM := (exWirM0.controllers.get? 0).getD crDefault

/-- The class handle of `BModule` in `AppModule`'s controllers. -/
def exWirC1 : ClassRefM := (exWirM0.controllers.get? 1).getD crDefault

/-- The assembled wiring graph of the example. -/
def exWirGraph : Graph := analyzeWiringGraph exWirProj exWirPaths

/-- The injection edge of the example
(`UserController → UserService`). -/
def exWirE3 : GraphEdge := (exWirGraph.edges.get? 3).getD eDefault

/-- A raw edge list with a duplicate `(from, to)` pair, for the deduplication
witnesses. -/
def exEdgesRaw : List GraphEdge :=
  [ { fromId := "a", toId := "b", crossFile := false }
    , { fromId := "a", toId := "b", crossFile := true }
    , { fromId := "c", toId := "d", crossFile := false } ]

/-- The survivor of the duplicate pair after deduplication. -/
def exEdgesD0 : GraphEdge := ((dedupByKey edgeKey exEdgesRaw).get? 0).getD eDefault

/-! # Lemmas

## JavaScript `Map` lemmas -/

section MapLemmas

variable {κ α : Type} [DecidableEq κ]

theorem mem_of_mem_jsMapSet {m : List (κ × α)} {k : κ} {v : α} {kv : κ × α}
    (h : kv ∈ jsMapSet m k v) : kv = (k, v) ∨ kv ∈ m := by
  unfold jsMapSet at h
  split at h
  · rcases List.mem_map.mp h with ⟨kv0, hkv0, hE⟩
    by_cases hk : kv0.1 = k
    · simp [hk] at hE; exact Or.inl hE.symm
    · simp [hk] at hE; exact Or.inr (hE ▸ hkv0)
  · rcases List.mem_append.mp h with h' | h'
    · exact Or.inr h'
    · simp at h'; exact Or.inl h'

theorem jsMapSet_of_not_has {m : List (κ × α)} {k : κ} (v : α)
    (h : jsMapHas m k = false) : jsMapSet m k v = m ++ [(k, v)] := by
  unfold jsMapSet
  unfold jsMapHas at h
  simp [h]

theorem jsMapHas_false_iff {m : List (κ × α)} {k : κ} :
    jsMapHas m k = false ↔ ∀ kv ∈ m, kv.1 ≠ k := by
  unfold jsMapHas
  simp

theorem jsMapHas_true_iff {m : List (κ × α)} {k : κ} :
    jsMapHas m k = true ↔ ∃ kv ∈ m, kv.1 = k := by
  unfold jsMapHas
  simp

theorem jsMapSet_keys {m : List (κ × α)} {k : κ} {v : α} :
    (jsMapSet m k v).map (·.1) =
      if jsMapHas m k then m.map (·.1) else m.map (·.1) ++ [k] := by
  unfold jsMapSet jsMapHas
  split
  · simp only [if_pos ‹_›, List.map_map]
    refine List.map_congr_left (fun kv _ => ?_)
    by_cases hk : kv.1 = k <;> simp [hk]
  · simp [if_neg ‹_›]

theorem jsMapSet_keys_nodup {m : List (κ × α)} {k : κ} {v : α}
    (h : (m.map (·.1)).Nodup) : ((jsMapSet m k v).map (·.1)).Nodup := by
  rw [jsMapSet_keys]
  split
  · exact h
  · rename_i hhas
    rw [List.nodup_append]
    refine ⟨h, List.nodup_singleton k, fun a ha hb => ?_⟩
    simp only [List.mem_singleton] at hb
    rcases List.mem_map.mp ha with ⟨kv, hkv, hk1⟩
    have hfa : jsMapHas m k = false := by simpa using hhas
    exact (jsMapHas_false_iff.mp hfa kv hkv) (by rw [hk1, hb])

theorem jsMapGet_eq_some_mem {m : List (κ × α)} {k : κ} {v : α}
    (h : jsMapGet m k = some v) : (k, v) ∈ m := by
  unfold jsMapGet at h
  cases hf : m.find? (fun kv => kv.1 = k) with
  | none => rw [hf] at h; simp at h
  | some kv =>
    rw [hf] at h
    simp at h
    have hmem := List.mem_of_find?_eq_some hf
    have hpred := List.find?_some hf
    simp at hpred
    have : kv = (k, v) := by
      cases kv with
      | mk a b => simp at hpred h; simp [hpred, h]
    exact this ▸ hmem

theorem jsMapGet_isSome_of_mem {m : List (κ × α)} {k : κ} {v : α}
    (h : (k, v) ∈ m) : (jsMapGet m k).isSome := by
  unfold jsMapGet
  cases hf : m.find? (fun kv => kv.1 = k) with
  | none =>
    have := List.find?_eq_none.mp hf (k, v) h
    simp at this
  | some kv => simp

theorem jsMapGet_of_mem_nodup {m : List (κ × α)} {k : κ} {v : α}
    (hnd : (m.map (·.1)).Nodup) (h : (k, v) ∈ m) : jsMapGet m k = some v := by
  cases hg : jsMapGet m k with
  | none =>
    have := jsMapGet_isSome_of_mem h
    rw [hg] at this; simp at this
  | some v' =>
    have h2 := jsMapGet_eq_some_mem hg
    have : v = v' := by
      have hinj := List.inj_on_of_nodup_map hnd
      have := hinj h h2 rfl
      simpa using this
    simp [this]

theorem find?_replaceMap_self (m : List (κ × α)) (k : κ) (v : α) :
    (m.map (fun kv => if kv.1 = k then (k, v) else kv)).find?
        (fun kv => kv.1 = k) =
      if m.any (fun kv => kv.1 = k) then some (k, v) else none := by
  induction m with
  | nil => simp
  | cons kv0 t ih =>
    by_cases hk : kv0.1 = k
    · simp [hk]
    · rw [List.map_cons, if_neg hk, List.find?_cons_of_neg _ (by simp [hk]), ih]
      congr 1
      simp [List.any_cons, hk]

theorem find?_replaceMap_ne (m : List (κ × α)) {k k' : κ} (v : α)
    (hne : k' ≠ k) :
    (m.map (fun kv => if kv.1 = k then (k, v) else kv)).find?
        (fun kv => kv.1 = k') =
      m.find? (fun kv => kv.1 = k') := by
  induction m with
  | nil => simp
  | cons kv0 t ih =>
    by_cases hk : kv0.1 = k
    · have h1 : ¬((k, v).1 = k') := fun h => hne h.symm
      have h2 : ¬(kv0.1 = k') := by rw [hk]; exact fun h => hne h.symm
      rw [List.map_cons, if_pos hk, List.find?_cons_of_neg _ (by simp [h1]),
        List.find?_cons_of_neg _ (by simp [h2]), ih]
    · rw [List.map_cons, if_neg hk]
      by_cases hk' : kv0.1 = k'
      · rw [List.find?_cons_of_pos _ (by simp [hk']),
          List.find?_cons_of_pos _ (by simp [hk'])]
      · rw [List.find?_cons_of_neg _ (by simp [hk']),
          List.find?_cons_of_neg _ (by simp [hk']), ih]

theorem jsMapGet_jsMapSet_self {m : List (κ × α)} {k : κ} {v : α} :
    jsMapGet (jsMapSet m k v) k = some v := by
  unfold jsMapGet jsMapSet
  split
  · rename_i hany
    rw [find?_replaceMap_self, if_pos hany]
    rfl
  · rename_i hany
    rw [List.find?_append]
    have hnone : m.find? (fun kv => kv.1 = k) = none := by
      rw [List.find?_eq_none]
      intro kv hkv
      simp only [decide_eq_true_eq]
      exact fun h => hany (List.any_eq_true.mpr ⟨kv, hkv, by simp [h]⟩)
    simp [hnone]

theorem jsMapGet_jsMapSet_ne {m : List (κ × α)} {k k' : κ} {v : α}
    (hne : k' ≠ k) : jsMapGet (jsMapSet m k v) k' = jsMapGet m k' := by
  unfold jsMapGet jsMapSet
  split
  · rw [find?_replaceMap_ne m v hne]
  · rw [List.find?_append]
    have : [(k, v)].find? (fun kv => kv.1 = k') = none := by
      simp [Ne.symm hne]
    cases hf : m.find? (fun kv => kv.1 = k') <;> simp [this, hf]

end MapLemmas

/-! ## Deduplication lemmas -/

section DedupLemmas

variable {κ α : Type} [DecidableEq κ] (key : α → κ)

theorem keyedMap_append (l : List α) (x : α) :
    keyedMap key (l ++ [x]) = jsMapSet (keyedMap key l) (key x) x := by
  unfold keyedMap
  rw [List.foldl_append]
  rfl

theorem keyedMap_entry {l : List α} {kv : κ × α} (h : kv ∈ keyedMap key l) :
    kv.1 = key kv.2 ∧ kv.2 ∈ l := by
  induction l using List.reverseRecOn with
  | nil => simp [keyedMap] at h
  | append_singleton l x ih =>
    rw [keyedMap_append] at h
    rcases mem_of_mem_jsMapSet h with h' | h'
    · subst h'; exact ⟨rfl, by simp⟩
    · rcases ih h' with ⟨ha, hb⟩; exact ⟨ha, by simp [hb]⟩

theorem keyedMap_keys_nodup (l : List α) :
    ((keyedMap key l).map (·.1)).Nodup := by
  induction l using List.reverseRecOn with
  | nil => simp [keyedMap]
  | append_singleton l x ih =>
    rw [keyedMap_append]
    exact jsMapSet_keys_nodup ih

theorem keyedMap_get (l : List α) (k : κ) :
    jsMapGet (keyedMap key l) k = (l.filter (fun x => key x = k)).getLast? := by
  induction l using List.reverseRecOn with
  | nil => simp [keyedMap, jsMapGet]
  | append_singleton l x ih =>
    rw [keyedMap_append]
    by_cases hk : key x = k
    · subst hk
      rw [jsMapGet_jsMapSet_self, List.filter_append]
      simp
    · rw [jsMapGet_jsMapSet_ne (fun h => hk h.symm), ih, List.filter_append]
      simp [hk]

theorem mem_of_mem_dedupByKey {l : List α} {x : α} (h : x ∈ dedupByKey key l) :
    x ∈ l := by
  unfold dedupByKey at h
  rcases List.mem_map.mp h with ⟨kv, hkv, rfl⟩
  exact (keyedMap_entry key hkv).2

theorem exists_mem_dedupByKey {l : List α} {x : α} (h : x ∈ l) :
    ∃ y ∈ dedupByKey key l, key y = key x := by
  cases hG : (l.filter (fun z => key z = key x)).getLast? with
  | none =>
    rw [List.getLast?_eq_none_iff] at hG
    have hx : x ∈ List.filter (fun z => decide (key z = key x)) l :=
      List.mem_filter.mpr ⟨h, by simp⟩
    rw [hG] at hx
    simp at hx
  | some y =>
    have hget : jsMapGet (keyedMap key l) (key x) = some y := by
      rw [keyedMap_get]; exact hG
    have hm := jsMapGet_eq_some_mem hget
    refine ⟨y, List.mem_map.mpr ⟨(key x, y), hm, rfl⟩, ?_⟩
    exact ((keyedMap_entry key hm).1).symm

theorem dedupByKey_getLast {l : List α} {y : α} (h : y ∈ dedupByKey key l) :
    (l.filter (fun z => key z = key y)).getLast? = some y := by
  unfold dedupByKey at h
  rcases List.mem_map.mp h with ⟨kv, hkv, rfl⟩
  have h1 := (keyedMap_entry key hkv).1
  have h2 : (kv.1, kv.2) ∈ keyedMap key l := by simpa using hkv
  have := jsMapGet_of_mem_nodup (keyedMap_keys_nodup key l) h2
  rw [keyedMap_get] at this
  rw [← h1]
  exact this

theorem dedupByKey_inj {l : List α} {y1 y2 : α} (h1 : y1 ∈ dedupByKey key l)
    (h2 : y2 ∈ dedupByKey key l) (hk : key y1 = key y2) : y1 = y2 := by
  have g1 := dedupByKey_getLast key h1
  have g2 := dedupByKey_getLast key h2
  rw [hk, g2] at g1
  exact (Option.some_inj.mp g1).symm

theorem keyedMap_of_nodup_keys {l : List α} (h : (l.map key).Nodup) :
    keyedMap key l = l.map (fun x => (key x, x)) := by
  induction l using List.reverseRecOn with
  | nil => rfl
  | append_singleton l x ih =>
    rw [List.map_append, List.nodup_append] at h
    rcases h with ⟨hl, _, hdisj⟩
    rw [keyedMap_append, ih hl, List.map_append]
    have hnot : jsMapHas (l.map (fun x => (key x, x))) (key x) = false := by
      rw [jsMapHas_false_iff]
      intro kv hkv
      rcases List.mem_map.mp hkv with ⟨z, hz, rfl⟩
      exact fun hzz => hdisj (List.mem_map.mpr ⟨z, hz, hzz⟩) (by simp)
    rw [jsMapSet_of_not_has _ hnot]
    rfl

theorem dedupByKey_of_nodup_keys {l : List α} (h : (l.map key).Nodup) :
    dedupByKey key l = l := by
  unfold dedupByKey
  rw [keyedMap_of_nodup_keys key h, List.map_map]
  show List.map (fun x => x) l = l
  exact List.map_id' l

theorem dedupByKey_map_key_nodup (l : List α) :
    ((dedupByKey key l).map key).Nodup := by
  unfold dedupByKey
  rw [List.map_map]
  have heq : (keyedMap key l).map (fun kv => key kv.2) =
      (keyedMap key l).map (·.1) :=
    List.map_congr_left (fun kv hkv => ((keyedMap_entry key hkv).1).symm)
  have : (fun kv : κ × α => key kv.2) = (key ∘ (·.2)) := rfl
  rw [← this, heq]
  exact keyedMap_keys_nodup key l

theorem dedupByKey_idem (l : List α) :
    dedupByKey key (dedupByKey key l) = dedupByKey key l :=
  dedupByKey_of_nodup_keys key (dedupByKey_map_key_nodup key l)

end DedupLemmas

/-! ## Id-format lemmas

Node ids have the shape `filePath ++ "#" ++ name ++ "::" ++ hash`.  When the
name and the hash contain neither `#` nor `:` the three components can be
recovered from the id, because the separating `#` is the last `#` of the
string and the `::` after it is unambiguous. -/

theorem sepFree_of_cleanStr {s : String} (h : cleanStr s = true) : sepFree s := by
  unfold cleanStr at h
  rw [List.all_eq_true] at h
  constructor <;> intro hc <;> have := h _ hc <;> simp [cleanChar] at this

theorem sepFree_append {a b : String} (ha : sepFree a) (hb : sepFree b) :
    sepFree (a ++ b) := by
  unfold sepFree at *
  rw [String.data_append]
  constructor <;> rw [List.mem_append]
  · rintro (h | h)
    · exact ha.1 h
    · exact hb.1 h
  · rintro (h | h)
    · exact ha.2 h
    · exact hb.2 h

/-- Splitting at a separator character absent from both prefixes is
unambiguous. -/
theorem append_sep_inj {sep : Char} {c1 c2 d1 d2 : List Char}
    (h1 : sep ∉ c1) (h2 : sep ∉ c2)
    (h : c1 ++ sep :: d1 = c2 ++ sep :: d2) : c1 = c2 ∧ d1 = d2 := by
  induction c1 generalizing c2 with
  | nil =>
    cases c2 with
    | nil => simpa using h
    | cons b t2 =>
      injection h with hb ht
      exact absurd (by rw [hb]; exact List.mem_cons_self _ _) h2
  | cons a t1 ih =>
    cases c2 with
    | nil =>
      injection h with hb ht
      exact absurd (by rw [← hb]; exact List.mem_cons_self _ _) h1
    | cons b t2 =>
      injection h with hb ht
      have hrec := ih (fun hm => h1 (List.mem_cons_of_mem _ hm))
        (fun hm => h2 (List.mem_cons_of_mem _ hm)) ht
      exact ⟨by rw [hb, hrec.1], hrec.2⟩

/-- List-level id decomposition. -/
theorem idPartsList_inj {f1 q1 g1 f2 q2 g2 : List Char}
    (hq1 : '#' ∉ q1 ∧ ':' ∉ q1) (hq2 : '#' ∉ q2 ∧ ':' ∉ q2)
    (hg1 : '#' ∉ g1 ∧ ':' ∉ g1) (hg2 : '#' ∉ g2 ∧ ':' ∉ g2)
    (h : f1 ++ '#' :: (q1 ++ ':' :: ':' :: g1) = f2 ++ '#' :: (q2 ++ ':' :: ':' :: g2)) :
    f1 = f2 ∧ q1 = q2 ∧ g1 = g2 := by
  have hr := congrArg List.reverse h
  simp only [List.reverse_append, List.reverse_cons, List.append_assoc] at hr
  have hshape : ∀ (f q g : List Char),
      g.reverse ++ ([':'] ++ ([':'] ++ (q.reverse ++ (['#'] ++ f.reverse)))) =
        (g.reverse ++ ':' :: ':' :: q.reverse) ++ '#' :: f.reverse := by
    intro f q g
    simp [List.append_assoc]
  rw [hshape f1 q1 g1, hshape f2 q2 g2] at hr
  have hnosep : ∀ (q g : List Char), '#' ∉ q → '#' ∉ g →
      '#' ∉ g.reverse ++ ':' :: ':' :: q.reverse := by
    intro q g hq hg hmem
    simp only [List.mem_append, List.mem_cons] at hmem
    rcases hmem with hm | hm | hm | hm
    · exact hg (List.mem_reverse.mp hm)
    · simp at hm
    · simp at hm
    · exact hq (List.mem_reverse.mp hm)
  have hsplit := append_sep_inj (hnosep q1 g1 hq1.1 hg1.1)
    (hnosep q2 g2 hq2.1 hg2.1) hr
  have hf : f1 = f2 := List.reverse_injective hsplit.2
  have hC := hsplit.1
  have hnocolon : ∀ (g : List Char), ':' ∉ g → (':' : Char) ∉ g.reverse := by
    intro g hg hmem
    exact hg (List.mem_reverse.mp hmem)
  have hsplit2 := append_sep_inj (hnocolon g1 hg1.2) (hnocolon g2 hg2.2) hC
  have hg : g1 = g2 := List.reverse_injective hsplit2.1
  have hq : q1 = q2 := by
    have := hsplit2.2
    injection this with _ hq'
    exact List.reverse_injective hq'
  exact ⟨hf, hq, hg⟩

/-- String-level id decomposition: ids agree iff path, name and hash agree,
provided names and hashes are separator-free. -/
theorem idParts_inj {fp1 q1 g1 fp2 q2 g2 : String}
    (hq1 : sepFree q1) (hq2 : sepFree q2) (hg1 : sepFree g1) (hg2 : sepFree g2)
    (h : fp1 ++ "#" ++ q1 ++ "::" ++ g1 = fp2 ++ "#" ++ q2 ++ "::" ++ g2) :
    fp1 = fp2 ∧ q1 = q2 ∧ g1 = g2 := by
  have hd := congrArg String.data h
  simp only [String.data_append] at hd
  have hform : ∀ (f q g : List Char),
      f ++ ['#'] ++ q ++ [':', ':'] ++ g = f ++ '#' :: (q ++ ':' :: ':' :: g) := by
    intro f q g
    simp [List.append_assoc]
  rw [hform, hform] at hd
  obtain ⟨h1, h2, h3⟩ := idPartsList_inj ⟨hq1.1, hq1.2⟩ ⟨hq2.1, hq2.2⟩
    ⟨hg1.1, hg1.2⟩ ⟨hg2.1, hg2.2⟩ hd
  exact ⟨String.ext h1, String.ext h2, String.ext h3⟩

/-- Base-36 digits are never `#` or `:`. -/
theorem base36Digit_sep {m : Nat} (hm : m < 36) :
    base36Digit m ≠ '#' ∧ base36Digit m ≠ ':' := by
  interval_cases m <;> exact ⟨by decide, by decide⟩

theorem toBase36Go_sep (fuel : Nat) :
    ∀ (n : Nat) (acc : List Char), (∀ c ∈ acc, c ≠ '#' ∧ c ≠ ':') →
      ∀ c ∈ toBase36Go fuel n acc, c ≠ '#' ∧ c ≠ ':' := by
  induction fuel with
  | zero =>
    intro n acc hacc
    simpa [toBase36Go] using hacc
  | succ f ih =>
    intro n acc hacc
    cases n with
    | zero => simpa [toBase36Go] using hacc
    | succ m =>
      refine ih ((m + 1) / 36) _ (fun c hc => ?_)
      rcases List.mem_cons.mp hc with hc | hc
      · exact hc ▸ base36Digit_sep (Nat.mod_lt _ (by norm_num))
      · exact hacc c hc

theorem toBase36_sep (n : Nat) : ∀ c ∈ (toBase36 n).data, c ≠ '#' ∧ c ≠ ':' := by
  unfold toBase36
  split
  · intro c hc
    have : c = '0' := by simpa using hc
    subst this
    exact ⟨by decide, by decide⟩
  · exact toBase36Go_sep (n + 1) n [] (by simp)

/-- Hash suffixes are separator-free. -/
theorem shortHash_sepFree (s : String) : sepFree (shortHash s) := by
  unfold shortHash
  constructor <;> intro hmem
  · exact (toBase36_sep _ _ (List.mem_of_mem_take hmem)).1 rfl
  · exact (toBase36_sep _ _ (List.mem_of_mem_take hmem)).2 rfl

/-- The placeholder names of the source are separator-free. -/
theorem sepFree_anon : sepFree "<anon>" := by constructor <;> decide

theorem sepFree_moduleName : sepFree "<Module>" := by constructor <;> decide

theorem sepFree_className : sepFree "<Class>" := by constructor <;> decide

theorem sepFree_dot : sepFree "." := by constructor <;> decide

theorem sepFree_getD_of_cleanOpt {s? : Option String} {d : String}
    (h : cleanOpt s? = true) (hd : sepFree d) : sepFree (s?.getD d) := by
  cases s? with
  | none => exact hd
  | some s => exact sepFree_of_cleanStr h

theorem sepFree_jsOrDefault {s? : Option String} {d : String}
    (h : cleanOpt s? = true) (hd : sepFree d) : sepFree (jsOrDefault s? d) := by
  cases s? with
  | none => exact hd
  | some s =>
    show sepFree (if s = "" then d else s)
    split
    · exact hd
    · exact sepFree_of_cleanStr (show cleanStr s = true from h)

/-! ## Collection-pass lemmas -/

theorem getSourceFileIdx_mem {proj : ProjectM} {p : String} {fi : Nat}
    {sf : SourceFileM} (h : proj.getSourceFileIdx p = some (fi, sf)) :
    sf ∈ proj.files ∧ sf.filePath = p := by
  unfold ProjectM.getSourceFileIdx at h
  have hmem := List.mem_of_find?_eq_some h
  have hpred := List.find?_some h
  simp only [decide_eq_true_eq] at hpred
  refine ⟨?_, hpred⟩
  have hget := List.mk_mem_enum_iff_getElem?.mp hmem
  exact List.getElem?_mem hget

theorem enum_snd_mem {α : Type} {l : List α} {ia : Nat × α} (h : ia ∈ l.enum) :
    ia.2 ∈ l := by
  obtain ⟨i, a⟩ := ia
  exact List.getElem?_mem (List.mk_mem_enum_iff_getElem?.mp h)

/-- The id of a built callable record decomposes into its recorded
components. -/
theorem mkCallableInfo_id (filePath : String) (declRef : DeclRef)
    (kindStr : String) (sigName? : Option String) (body : FnBody)
    (name? : Option String) (className? : Option String)
    (role? : Option String) :
    (mkCallableInfo filePath declRef kindStr sigName? body name? className?
        role?).id =
      (mkCallableInfo filePath declRef kindStr sigName? body name? className?
        role?).filePath ++ "#" ++
      (mkCallableInfo filePath declRef kindStr sigName? body name? className?
        role?).qualName ++ "::" ++
      shortHash (mkCallableInfo filePath declRef kindStr sigName? body name?
        className? role?).sigKey := rfl

/-- Qualified names built from clean declared names are separator-free. -/
theorem mkCallableInfo_qual_sepFree {filePath : String} {declRef : DeclRef}
    {kindStr : String} {sigName? : Option String} {body : FnBody}
    {name? : Option String} {className? : Option String} {role? : Option String}
    (hn : sepFree (name?.getD "<anon>"))
    (hc : ∀ s, className? = some s → cleanStr s = true) :
    sepFree (mkCallableInfo filePath declRef kindStr sigName? body name?
      className? role?).qualName := by
  cases className? with
  | none => exact hn
  | some cc =>
    by_cases hcc : cc = ""
    · simp only [mkCallableInfo, if_pos hcc]
      exact hn
    · simp only [mkCallableInfo, if_neg hcc]
      exact sepFree_append
        (sepFree_append (sepFree_of_cleanStr (hc cc rfl)) sepFree_dot) hn

/-- Every callable collected from a file with clean names has a decomposable
id, a separator-free qualified name, and records the file's path. -/
theorem collectFile_props {fi : Nat} {sf : SourceFileM} {c : CallableInfo}
    (hcl : cleanFile sf = true) (h : c ∈ collectFile fi sf) :
    c.filePath = sf.filePath ∧
    c.id = c.filePath ++ "#" ++ c.qualName ++ "::" ++ shortHash c.sigKey ∧
    sepFree c.qualName := by
  unfold cleanFile at hcl
  rw [Bool.and_eq_true, Bool.and_eq_true] at hcl
  obtain ⟨⟨hfns, hcls⟩, hvars⟩ := hcl
  unfold collectFile at h
  rcases List.mem_append.mp h with h | h
  · rcases List.mem_append.mp h with h | h
    · -- top-level functions
      rcases List.mem_map.mp h with ⟨jfn, hjfn, rfl⟩
      have hfmem : jfn.2 ∈ sf.functions := enum_snd_mem hjfn
      have hnc : cleanOpt jfn.2.name? = true :=
        List.all_eq_true.mp hfns _ hfmem
      refine ⟨rfl, mkCallableInfo_id .., ?_⟩
      exact mkCallableInfo_qual_sepFree
        (show sepFree (jsOrDefault jfn.2.name? "<anon>") from
          sepFree_jsOrDefault hnc sepFree_anon)
        (fun s hs => by cases hs)
    · -- classes: methods and property initializers
      rcases List.mem_flatMap.mp h with ⟨icls, hicls, h⟩
      have hcmem : icls.2 ∈ sf.classes := enum_snd_mem hicls
      have hccl : cleanClass icls.2 = true :=
        List.all_eq_true.mp hcls _ hcmem
      unfold cleanClass at hccl
      rw [Bool.and_eq_true, Bool.and_eq_true] at hccl
      obtain ⟨⟨hcn, hcm⟩, hcp⟩ := hccl
      have hcname : ∀ s, icls.2.name? = some s → cleanStr s = true := by
        intro s hs
        rw [hs] at hcn
        exact hcn
      rcases List.mem_append.mp h with h | h
      · -- methods
        rcases List.mem_map.mp h with ⟨im, him, rfl⟩
        have hmm : im.2 ∈ icls.2.methods := enum_snd_mem him
        have hmn : cleanOpt im.2.name? = true := List.all_eq_true.mp hcm _ hmm
        exact ⟨rfl, mkCallableInfo_id ..,
          mkCallableInfo_qual_sepFree
            (sepFree_getD_of_cleanOpt hmn sepFree_anon) hcname⟩
      · -- property initializers
        rcases List.mem_filterMap.mp h with ⟨ip, hip, hsome⟩
        have hpm : ip.2 ∈ icls.2.props := enum_snd_mem hip
        have hpn : cleanOpt ip.2.name? = true := List.all_eq_true.mp hcp _ hpm
        cases hinit : ip.2.init? with
        | none => rw [hinit] at hsome; simp at hsome
        | some ie =>
          cases ie with
          | arrow body =>
            rw [hinit] at hsome
            simp only [Option.some_inj] at hsome
            subst hsome
            exact ⟨rfl, mkCallableInfo_id ..,
              mkCallableInfo_qual_sepFree
                (sepFree_getD_of_cleanOpt hpn sepFree_anon) hcname⟩
          | funcExpr n? body =>
            rw [hinit] at hsome
            simp only [Option.some_inj] at hsome
            subst hsome
            exact ⟨rfl, mkCallableInfo_id ..,
              mkCallableInfo_qual_sepFree
                (sepFree_getD_of_cleanOpt hpn sepFree_anon) hcname⟩
          | otherInit => rw [hinit] at hsome; simp at hsome
  · -- top-level variable initializers
    rcases List.mem_filterMap.mp h with ⟨iv, hiv, hsome⟩
    have hvm : iv.2 ∈ sf.varDecls := enum_snd_mem hiv
    have hvn : cleanOpt iv.2.name? = true := List.all_eq_true.mp hvars _ hvm
    cases hinit : iv.2.init? with
    | none => rw [hinit] at hsome; simp at hsome
    | some ie =>
      cases ie with
      | arrow body =>
        rw [hinit] at hsome
        simp only [Option.some_inj] at hsome
        subst hsome
        exact ⟨rfl, mkCallableInfo_id ..,
          mkCallableInfo_qual_sepFree
            (sepFree_getD_of_cleanOpt hvn sepFree_anon) (fun s hs => by cases hs)⟩
      | funcExpr n? body =>
        rw [hinit] at hsome
        simp only [Option.some_inj] at hsome
        subst hsome
        exact ⟨rfl, mkCallableInfo_id ..,
          mkCallableInfo_qual_sepFree
            (sepFree_getD_of_cleanOpt hvn sepFree_anon) (fun s hs => by cases hs)⟩
      | otherInit => rw [hinit] at hsome; simp at hsome

/-- `collectCallables` version of `collectFile_props`. -/
theorem collectCallables_props {proj : ProjectM} {fps : List String}
    {c : CallableInfo} (hcl : cleanProject proj = true)
    (h : c ∈ collectCallables proj fps) :
    c.id = c.filePath ++ "#" ++ c.qualName ++ "::" ++ shortHash c.sigKey ∧
    sepFree c.qualName := by
  unfold collectCallables at h
  rw [List.mem_flatMap] at h
  obtain ⟨p, hp, hc2⟩ := h
  cases hgs : proj.getSourceFileIdx p with
  | none => rw [hgs] at hc2; simp at hc2
  | some isf =>
    rw [hgs] at hc2
    obtain ⟨fi, sf⟩ := isf
    have hmem := getSourceFileIdx_mem hgs
    have hclf : cleanFile sf = true :=
      List.all_eq_true.mp hcl _ hmem.1
    obtain ⟨hfp, hid, hsep⟩ := collectFile_props hclf hc2
    exact ⟨hid, hsep⟩

/-- Two collected callables with equal ids share file path, qualified name
and signature hash (and conversely), in a clean project. -/
theorem collected_id_iff {proj : ProjectM} {fps : List String}
    {c1 c2 : CallableInfo} (hcl : cleanProject proj = true)
    (h1 : c1 ∈ collectCallables proj fps) (h2 : c2 ∈ collectCallables proj fps) :
    c1.id = c2.id ↔
      (c1.filePath = c2.filePath ∧ c1.qualName = c2.qualName ∧
        shortHash c1.sigKey = shortHash c2.sigKey) := by
  obtain ⟨hid1, hsep1⟩ := collectCallables_props hcl h1
  obtain ⟨hid2, hsep2⟩ := collectCallables_props hcl h2
  constructor
  · intro h
    rw [hid1, hid2] at h
    exact idParts_inj hsep1 hsep2 (shortHash_sepFree _) (shortHash_sepFree _) h
  · rintro ⟨ha, hb, hc⟩
    rw [hid1, hid2, ha, hb, hc]

/-! ## Call-edge lemmas -/

theorem callablesByDecl_eq_keyedMap (cs : List CallableInfo) :
    callablesByDecl cs = keyedMap (fun c => c.decl) cs := rfl

theorem matchCallable_mem {cs : List CallableInfo} {d : DeclRef}
    {ci : CallableInfo}
    (h : matchCallableFromDecl (callablesByDecl cs) d = some ci) : ci ∈ cs := by
  cases d <;> simp only [matchCallableFromDecl] at h
  case nonCallable => exact absurd h (by simp)
  all_goals
    exact (keyedMap_entry _
      (jsMapGet_eq_some_mem (callablesByDecl_eq_keyedMap cs ▸ h))).2

/-- Inversion of the call-edge pass: every raw edge comes from a collected
caller and a collected callee with distinct ids, and its `crossFile` flag is
computed from their file paths. -/
theorem mem_callEdges {cs : List CallableInfo} {e : GraphEdge}
    (h : e ∈ callEdges cs (callablesByDecl cs)) :
    ∃ caller callee : CallableInfo, caller ∈ cs ∧ callee ∈ cs ∧
      caller.id ≠ callee.id ∧
      e = { fromId := caller.id, toId := callee.id,
            crossFile := decide
              (simplifyPath caller.filePath ≠ simplifyPath callee.filePath) } := by
  unfold callEdges at h
  rw [List.mem_flatMap] at h
  obtain ⟨caller, hcmem, h⟩ := h
  rw [List.mem_filterMap] at h
  obtain ⟨call, hcall, hsome⟩ := h
  cases hfs : call.resolvedDecls.findSome?
      (matchCallableFromDecl (callablesByDecl cs)) with
  | none => rw [hfs] at hsome; simp at hsome
  | some ci =>
    rw [hfs] at hsome
    obtain ⟨d, hd, hmc⟩ := List.exists_of_findSome?_eq_some hfs
    have hci : ci ∈ cs := matchCallable_mem hmc
    by_cases hne : caller.id ≠ ci.id
    · simp only [if_pos hne, Option.some_inj] at hsome
      exact ⟨caller, ci, hcmem, hci, hne, hsome.symm⟩
    · simp only [if_neg hne] at hsome
      exact absurd hsome (by simp)

theorem analyzeDirectoryGraph_edges_eq (proj : ProjectM) (fps : List String) :
    (analyzeDirectoryGraph proj fps).edges =
      dedupByKey edgeKey (callEdges (collectCallables proj fps)
        (callablesByDecl (collectCallables proj fps))) := rfl

theorem analyzeDirectoryGraph_nodes_eq (proj : ProjectM) (fps : List String) :
    (analyzeDirectoryGraph proj fps).nodes =
      dedupByKey nodeKey ((collectCallables proj fps).map nodeOfCallable) := rfl

/-! ## Wiring-graph lemmas -/

/-- Two parses of the same id agree on the file path. -/
theorem IdShape_fp_inj {i fp1 fp2 : String} (h1 : IdShape i fp1)
    (h2 : IdShape i fp2) : fp1 = fp2 := by
  obtain ⟨q1, g1, hq1, hg1, he1⟩ := h1
  obtain ⟨q2, g2, hq2, hg2, he2⟩ := h2
  exact (idParts_inj hq1 hq2 hg1 hg2 (he1 ▸ he2)).1

theorem classNodeId_shape {fp : String} {name? : Option String}
    (h : cleanOpt name? = true) : IdShape (classNodeId fp name?) fp :=
  ⟨jsOrDefault name? "<Class>", shortHash (jsOrDefault name? "<Class>"),
    sepFree_jsOrDefault h sepFree_className, shortHash_sepFree _, rfl⟩

theorem moduleNodeId_shape {fp : String} {name? : Option String}
    (h : cleanOpt name? = true) : IdShape (moduleNodeId fp name?) fp :=
  ⟨jsOrDefault name? "<Module>", shortHash (jsOrDefault name? "<Module>"),
    sepFree_jsOrDefault h sepFree_moduleName, shortHash_sepFree _, rfl⟩

theorem jsMapHas_of_mem {κ α : Type} [DecidableEq κ] {m : List (κ × α)}
    {kv : κ × α} (h : kv ∈ m) : jsMapHas m kv.1 = true :=
  jsMapHas_true_iff.mpr ⟨kv, h, rfl⟩

theorem jsMapHas_mono {κ α : Type} [DecidableEq κ] {m : List (κ × α)}
    {k k' : κ} {v : α} (h : jsMapHas m k' = true) :
    jsMapHas (jsMapSet m k v) k' = true := by
  obtain ⟨kv, hkv, hk⟩ := jsMapHas_true_iff.mp h
  unfold jsMapSet
  split
  · refine jsMapHas_true_iff.mpr ?_
    by_cases he : kv.1 = k
    · exact ⟨(k, v), List.mem_map.mpr ⟨kv, hkv, by simp [he]⟩, by rw [← hk, he]⟩
    · exact ⟨kv, List.mem_map.mpr ⟨kv, hkv, by simp [he]⟩, hk⟩
  · exact jsMapHas_true_iff.mpr ⟨kv, List.mem_append_left _ hkv, hk⟩

/-- Inversion of the class lookup. -/
theorem getClass?_mem {proj : ProjectM} {fi ci : Nat}
    {sfc : SourceFileM × ClassDeclM} (h : proj.getClass? fi ci = some sfc) :
    sfc.1 ∈ proj.files ∧ sfc.2 ∈ sfc.1.classes := by
  unfold ProjectM.getClass? at h
  rw [Option.bind_eq_some] at h
  obtain ⟨sf, hf, h⟩ := h
  rw [Option.map_eq_some'] at h
  obtain ⟨cd, hc, h⟩ := h
  subst h
  exact ⟨List.get?_mem hf, List.get?_mem hc⟩

/-- Resolution only returns classes of the project, hence with clean names in
a clean project. -/
theorem resolveClassHandle_clean {proj : ProjectM} {r : ResDecl}
    {c : ClassRefM} (hcl : cleanProject proj = true)
    (h : resolveClassHandle proj r = some c) : RefClean c := by
  have hcls : ∃ sf ∈ proj.files, c.cls ∈ sf.classes := by
    cases r with
    | noClass t => simp [resolveClassHandle] at h
    | cls fi ci =>
      simp only [resolveClassHandle] at h
      rw [Option.map_eq_some'] at h
      obtain ⟨sfc, hg, h⟩ := h
      obtain ⟨h1, h2⟩ := getClass?_mem hg
      subst h
      exact ⟨sfc.1, h1, h2⟩
    | inClass fi ci =>
      simp only [resolveClassHandle] at h
      rw [Option.map_eq_some'] at h
      obtain ⟨sfc, hg, h⟩ := h
      obtain ⟨h1, h2⟩ := getClass?_mem hg
      subst h
      exact ⟨sfc.1, h1, h2⟩
  obtain ⟨sf, hsf, hc⟩ := hcls
  have h1 : cleanFile sf = true := List.all_eq_true.mp hcl _ hsf
  unfold cleanFile at h1
  rw [Bool.and_eq_true, Bool.and_eq_true] at h1
  have h2 : cleanClass c.cls = true := List.all_eq_true.mp h1.1.2 _ hc
  unfold cleanClass at h2
  rw [Bool.and_eq_true, Bool.and_eq_true] at h2
  exact h2.1.1

/-- Invariant preservation along a left fold. -/
theorem foldl_inv {α σ : Type} {P : σ → Prop} {f : σ → α → σ} :
    ∀ {l : List α}, (∀ s a, a ∈ l → P s → P (f s a)) →
      ∀ {s : σ}, P s → P (l.foldl f s) := by
  intro l
  induction l with
  | nil => intro _ s hs; exact hs
  | cons a t ih =>
    intro hstep s hs
    exact ih (fun s b hb => hstep s b (List.mem_cons_of_mem _ hb))
      (hstep s a (List.mem_cons_self _ _) hs)

theorem jsMapHas_jsMapSet_self {κ α : Type} [DecidableEq κ]
    {m : List (κ × α)} {k : κ} {v : α} : jsMapHas (jsMapSet m k v) k = true :=
  jsMapHas_of_mem (jsMapGet_eq_some_mem (jsMapGet_jsMapSet_self (m := m)))

theorem classesOfRes_clean {proj : ProjectM} {res : List ResDecl}
    {c : ClassRefM} (hcl : cleanProject proj = true)
    (h : c ∈ classesOfRes proj res) : RefClean c := by
  unfold classesOfRes at h
  rcases List.mem_filterMap.mp h with ⟨r, _, hr⟩
  exact resolveClassHandle_clean hcl hr

theorem collectClassesM_clean {proj : ProjectM} {init : MetaInitM}
    {c : ClassRefM} (hcl : cleanProject proj = true)
    (h : c ∈ collectClassesM proj init) : RefClean c := by
  cases init with
  | plainE res => exact classesOfRes_clean hcl h
  | arrayLit elems =>
    unfold collectClassesM at h
    rcases List.mem_flatMap.mp h with ⟨el, _, hel⟩
    cases el with
    | spread => simp at hel
    | elemE res => exact classesOfRes_clean hcl hel

/-- Reading one metadata property leaves the module's identity fields
untouched. -/
theorem readMetaProp_fields (proj : ProjectM) (info : ModuleInfoM)
    (p : ObjPropM) :
    (readMetaProp proj info p).id = info.id ∧
    (readMetaProp proj info p).filePath = info.filePath ∧
    (readMetaProp proj info p).fileKey = info.fileKey := by
  cases p with
  | otherProp => exact ⟨rfl, rfl, rfl⟩
  | propAssign rawName init? =>
    cases init? with
    | none => exact ⟨rfl, rfl, rfl⟩
    | some init =>
      simp only [readMetaProp]
      repeat' split
      all_goals exact ⟨rfl, rfl, rfl⟩

/-- Any class reference added by one metadata property is cleanly resolved. -/
theorem readMetaProp_refs {proj : ProjectM} {info : ModuleInfoM} {p : ObjPropM}
    {c : ClassRefM} (hcl : cleanProject proj = true)
    (h : c ∈ (readMetaProp proj info p).controllers ++
      (readMetaProp proj info p).providers ++
      (readMetaProp proj info p).importedModules) :
    c ∈ info.controllers ++ info.providers ++ info.importedModules ∨
      RefClean c := by
  cases p with
  | otherProp => exact Or.inl h
  | propAssign rawName init? =>
    cases init? with
    | none => exact Or.inl h
    | some init =>
      simp only [readMetaProp] at h
      split at h
      · -- imports
        rcases List.mem_append.mp h with h1 | h2
        · exact Or.inl (List.mem_append_left _ h1)
        · rcases List.mem_append.mp h2 with h3 | h4
          · exact Or.inl (List.mem_append_right _ h3)
          · exact Or.inr (collectClassesM_clean hcl h4)
      · split at h
        · -- controllers
          rcases List.mem_append.mp h with h1 | h2
          · rcases List.mem_append.mp h1 with h3 | h4
            · rcases List.mem_append.mp h3 with h5 | h6
              · exact Or.inl (List.mem_append_left _ (List.mem_append_left _ h5))
              · exact Or.inr (collectClassesM_clean hcl h6)
            · exact Or.inl (List.mem_append_left _ (List.mem_append_right _ h4))
          · exact Or.inl (List.mem_append_right _ h2)
        · split at h
          · -- providers / exports
            rcases List.mem_append.mp h with h1 | h2
            · rcases List.mem_append.mp h1 with h3 | h4
              · exact Or.inl (List.mem_append_left _ (List.mem_append_left _ h3))
              · rcases List.mem_append.mp h4 with h5 | h6
                · exact Or.inl
                    (List.mem_append_left _ (List.mem_append_right _ h5))
                · exact Or.inr (collectClassesM_clean hcl h6)
            · exact Or.inl (List.mem_append_right _ h2)
          · exact Or.inl h

theorem metaFold_fields (proj : ProjectM) (props : List ObjPropM) :
    ∀ info : ModuleInfoM,
      (props.foldl (readMetaProp proj) info).id = info.id ∧
      (props.foldl (readMetaProp proj) info).filePath = info.filePath ∧
      (props.foldl (readMetaProp proj) info).fileKey = info.fileKey := by
  induction props with
  | nil => intro info; exact ⟨rfl, rfl, rfl⟩
  | cons p t ih =>
    intro info
    have h1 := readMetaProp_fields proj info p
    have h2 := ih (readMetaProp proj info p)
    exact ⟨h2.1.trans h1.1, h2.2.1.trans h1.2.1, h2.2.2.trans h1.2.2⟩

theorem metaFold_refs {proj : ProjectM} (props : List ObjPropM)
    (hcl : cleanProject proj = true) :
    ∀ (info : ModuleInfoM) (c : ClassRefM),
      c ∈ (props.foldl (readMetaProp proj) info).controllers ++
        (props.foldl (readMetaProp proj) info).providers ++
        (props.foldl (readMetaProp proj) info).importedModules →
      c ∈ info.controllers ++ info.providers ++ info.importedModules ∨
        RefClean c := by
  induction props with
  | nil => intro info c h; exact Or.inl h
  | cons p t ih =>
    intro info c h
    rcases ih (readMetaProp proj info p) c h with h' | h'
    · exact readMetaProp_refs hcl h'
    · exact Or.inr h'

theorem readModuleMeta_fields (proj : ProjectM) (info : ModuleInfoM)
    (metaArg? : Option DecoArgM) :
    (readModuleMeta proj info metaArg?).id = info.id ∧
    (readModuleMeta proj info metaArg?).filePath = info.filePath ∧
    (readModuleMeta proj info metaArg?).fileKey = info.fileKey := by
  cases metaArg? with
  | none => exact ⟨rfl, rfl, rfl⟩
  | some arg =>
    cases arg with
    | objectLit props => exact metaFold_fields proj props info
    | resolvedE res => exact ⟨rfl, rfl, rfl⟩

theorem readModuleMeta_refs {proj : ProjectM} {info : ModuleInfoM}
    {metaArg? : Option DecoArgM} {c : ClassRefM}
    (hcl : cleanProject proj = true)
    (h : c ∈ (readModuleMeta proj info metaArg?).controllers ++
      (readModuleMeta proj info metaArg?).providers ++
      (readModuleMeta proj info metaArg?).importedModules) :
    c ∈ info.controllers ++ info.providers ++ info.importedModules ∨
      RefClean c := by
  cases metaArg? with
  | none => exact Or.inl h
  | some arg =>
    cases arg with
    | objectLit props => exact metaFold_refs props hcl info c h
    | resolvedE res => exact Or.inl h

theorem class_name_clean {proj : ProjectM} {sf : SourceFileM} {cls : ClassDeclM}
    (hcl : cleanProject proj = true) (hsf : sf ∈ proj.files)
    (hcls : cls ∈ sf.classes) : cleanOpt cls.name? = true := by
  have h1 : cleanFile sf = true := List.all_eq_true.mp hcl _ hsf
  unfold cleanFile at h1
  rw [Bool.and_eq_true, Bool.and_eq_true] at h1
  have h2 := List.all_eq_true.mp h1.1.2 _ hcls
  unfold cleanClass at h2
  rw [Bool.and_eq_true, Bool.and_eq_true] at h2
  exact h2.1.1

/-- The module scan preserves its invariant at each class. -/
theorem scanModuleClass_inv {proj : ProjectM} {sf : SourceFileM}
    {st : WiringScanState} {cls : ClassDeclM} (hcl : cleanProject proj = true)
    (hsf : sf ∈ proj.files) (hcls : cls ∈ sf.classes) (hInv : ScanInv st) :
    ScanInv (scanModuleClass proj sf st cls) := by
  obtain ⟨hById, hNodup, hMods⟩ := hInv
  have hname : cleanOpt cls.name? = true := class_name_clean hcl hsf hcls
  simp only [scanModuleClass]
  split
  · exact ⟨hById, hNodup, hMods⟩
  · set moduleName := jsOrDefault cls.name? "<Module>" with hmn
    set nodeId : String :=
      sf.filePath ++ "#" ++ moduleName ++ "::" ++ shortHash moduleName with hni
    set info0 : ModuleInfoM :=
      { id := nodeId, name := moduleName, filePath := sf.filePath,
        fileKey := moduleKeyFor sf.filePath moduleName, controllers := [],
        providers := [], importedModules := [] } with hinfo0
    set info := readModuleMeta proj info0
      ((cls.decos.find? (fun d => d.name? == some "Module")).bind
        (·.args.head?)) with hinfodef
    set moduleNode : GraphNode :=
      { id := nodeId, label := moduleName, kind := "ClassDeclaration",
        isAsync? := some false, filePath := sf.filePath,
        fileKey := moduleKeyFor sf.filePath moduleName, className? := none,
        role? := some "module" } with hmnode
    have hfields := readModuleMeta_fields proj info0
      ((cls.decos.find? (fun d => d.name? == some "Module")).bind (·.args.head?))
    have hinfoid : info.id = nodeId := hfields.1
    have hinfofp : info.filePath = sf.filePath := hfields.2.1
    have hshape : IdShape nodeId sf.filePath :=
      ⟨moduleName, shortHash moduleName,
        sepFree_jsOrDefault hname sepFree_moduleName, shortHash_sepFree _, rfl⟩
    refine ⟨?_, jsMapSet_keys_nodup hNodup, ?_⟩
    · intro kv hkv
      rcases mem_of_mem_jsMapSet hkv with hkv' | hkv'
      · subst hkv'
        refine ⟨⟨rfl, ?_, Or.inl rfl⟩, rfl, ⟨info, by simp, hinfoid⟩⟩
        exact hshape
      · obtain ⟨hE, hrole, m, hm, hmid⟩ := hById kv hkv'
        exact ⟨hE, hrole, ⟨m, List.mem_append_left _ hm, hmid⟩⟩
    · intro m hm
      rcases List.mem_append.mp hm with hm' | hm'
      · obtain ⟨hOk, hHas⟩ := hMods m hm'
        exact ⟨hOk, jsMapHas_mono hHas⟩
      · have : m = info := by simpa using hm'
        subst this
        refine ⟨⟨?_, ?_⟩, ?_⟩
        · rw [hinfoid, hinfofp]
          exact hshape
        · intro c hc
          rcases readModuleMeta_refs hcl (hinfodef ▸ hc) with h' | h'
          · simp [hinfo0] at h'
          · exact h'
        · rw [hinfoid]
          exact jsMapHas_jsMapSet_self

/-- The whole module scan establishes the invariant. -/
theorem scanModules_inv (proj : ProjectM) (fps : List String)
    (hcl : cleanProject proj = true) : ScanInv (scanModules proj fps) := by
  unfold scanModules
  refine foldl_inv (fun st p _ hInv => ?_) ?_
  · cases hgs : proj.getSourceFileIdx p with
    | none => exact hInv
    | some isf =>
      obtain ⟨fi, sf⟩ := isf
      have hsf := (getSourceFileIdx_mem hgs).1
      exact foldl_inv
        (fun st clsd hclsd hI => scanModuleClass_inv hcl hsf hclsd hI) hInv
  · exact ⟨fun kv hkv => by simp at hkv, by simp, fun m hm => by simp at hm⟩

theorem jsMapGet_some_of_has {κ α : Type} [DecidableEq κ] {m : List (κ × α)}
    {k : κ} (h : jsMapHas m k = true) : ∃ v, jsMapGet m k = some v := by
  obtain ⟨kv, hkv, hk⟩ := jsMapHas_true_iff.mp h
  have := jsMapGet_isSome_of_mem (m := m) (k := k) (v := kv.2)
    (by rw [← hk]; simpa using hkv)
  cases hg : jsMapGet m k with
  | none => rw [hg] at this; simp at this
  | some v => exact ⟨v, rfl⟩

theorem roleFor_cases (cls : ClassDeclM) :
    roleFor cls = "controller" ∨ roleFor cls = "service" ∨
      roleFor cls = "provider" := by
  simp only [roleFor]
  split
  · exact Or.inl rfl
  · split
    · exact Or.inr (Or.inl rfl)
    · exact Or.inr (Or.inr rfl)

theorem EdgeOk_mono {byId byId' : List (String × GraphNode)} {e : GraphEdge}
    (h : EdgeOk byId e) (hsub : ∀ kv ∈ byId, kv ∈ byId') : EdgeOk byId' e := by
  obtain ⟨vf, vt, h1, h2, h3⟩ := h
  exact ⟨vf, vt, hsub _ h1, hsub _ h2, h3⟩

/-- The entry stored at a key whose shaped id parses to `fp` records `fp` as
its file path. -/
theorem entry_filePath_eq {byId : List (String × GraphNode)}
    {kv : String × GraphNode} {fp : String} (hOk : ∀ x ∈ byId, EntryOk x)
    (hkv : kv ∈ byId) (hshape : IdShape kv.1 fp) : kv.2.filePath = fp := by
  obtain ⟨hid, hnode, _⟩ := hOk kv hkv
  exact IdShape_fp_inj (hid ▸ hnode) hshape

/-- Membership in a map is preserved by `set` of an absent key. -/
theorem mem_jsMapSet_of_not_has {κ α : Type} [DecidableEq κ]
    {m : List (κ × α)} {k : κ} {v : α} {kv : κ × α}
    (hhas : jsMapHas m k = false) (h : kv ∈ m) : kv ∈ jsMapSet m k v := by
  rw [jsMapSet_of_not_has _ hhas]
  exact List.mem_append_left _ h

theorem self_mem_jsMapSet_of_not_has {κ α : Type} [DecidableEq κ]
    {m : List (κ × α)} {k : κ} {v : α} (hhas : jsMapHas m k = false) :
    (k, v) ∈ jsMapSet m k v := by
  rw [jsMapSet_of_not_has _ hhas]
  exact List.mem_append_right _ (by simp)

/-- `ensureNode` preserves the wiring invariant, only grows the state, and
guarantees a mapped node for the contained class. -/
theorem ensureNodeStep_inv {byId0 : List (String × GraphNode)}
    {m : ModuleInfoM} {sectionLabel : String} {st : WiringState}
    {c : ClassRefM} (hc : RefClean c) (hmid : IdShape m.id m.filePath)
    (hhas : jsMapHas st.byId m.id = true) (hInv : WInv byId0 st) :
    WInv byId0 (ensureNodeStep m sectionLabel st c) ∧
    (∀ kv ∈ st.byId, kv ∈ (ensureNodeStep m sectionLabel st c).byId) ∧
    (∀ n ∈ st.nodes, n ∈ (ensureNodeStep m sectionLabel st c).nodes) ∧
    (∀ kv ∈ (ensureNodeStep m sectionLabel st c).byId,
      kv ∈ st.byId ∨ kv.2 ∈ (ensureNodeStep m sectionLabel st c).nodes) ∧
    jsMapHas (ensureNodeStep m sectionLabel st c).byId
      (classNodeId c.filePath c.cls.name?) = true := by
  obtain ⟨⟨hEnt, hNd⟩, hSub0, hNodes, hEdges⟩ := hInv
  have hcshape : IdShape (classNodeId c.filePath c.cls.name?) c.filePath :=
    classNodeId_shape hc
  obtain ⟨kf, hkf, hkf1⟩ := jsMapHas_true_iff.mp hhas
  have hkfentry : (m.id, kf.2) ∈ st.byId := by rw [← hkf1]; simpa using hkf
  have hkffp : kf.2.filePath = m.filePath :=
    entry_filePath_eq hEnt hkf (hkf1 ▸ hmid)
  simp only [ensureNodeStep]
  split
  · -- creation branch
    rename_i hcond
    have hhasC : jsMapHas st.byId (classNodeId c.filePath c.cls.name?) = false := by
      simpa using hcond
    refine ⟨⟨⟨?_, jsMapSet_keys_nodup hNd⟩, ?_, ?_, ?_⟩, ?_, ?_, ?_, ?_⟩
    · intro kv hkv
      rcases mem_of_mem_jsMapSet hkv with hkv' | hkv'
      · subst hkv'
        refine ⟨rfl, hcshape, ?_⟩
        rcases roleFor_cases c.cls with h | h | h
        · exact Or.inr (Or.inl (by simp [Role4, h]))
        · exact Or.inr (Or.inr (Or.inl (by simp [h])))
        · exact Or.inr (Or.inr (Or.inr (by simp [h])))
      · exact hEnt kv hkv'
    · exact fun kv hkv => mem_jsMapSet_of_not_has hhasC (hSub0 kv hkv)
    · intro n hn
      rcases List.mem_append.mp hn with hn | hn
      · exact mem_jsMapSet_of_not_has hhasC (hNodes n hn)
      · simp only [List.mem_singleton] at hn
        subst hn
        exact self_mem_jsMapSet_of_not_has hhasC
    · intro e he
      rcases List.mem_append.mp he with he | he
      · exact EdgeOk_mono (hEdges e he)
          (fun kv hkv => mem_jsMapSet_of_not_has hhasC hkv)
      · simp only [List.mem_singleton] at he
        subst he
        exact ⟨kf.2, _, mem_jsMapSet_of_not_has hhasC hkfentry,
          self_mem_jsMapSet_of_not_has hhasC, by rw [hkffp]⟩
    · exact fun kv hkv => mem_jsMapSet_of_not_has hhasC hkv
    · exact fun n hn => List.mem_append_left _ hn
    · intro kv hkv
      rcases mem_of_mem_jsMapSet hkv with hkv' | hkv'
      · subst hkv'
        exact Or.inr (List.mem_append_right _ (by simp))
      · exact Or.inl hkv'
    · exact jsMapHas_jsMapSet_self
  · -- the node map already has the id
    rename_i hcond
    have hhasC : jsMapHas st.byId (classNodeId c.filePath c.cls.name?) = true := by
      simpa using hcond
    split
    · -- not yet among the pushed nodes: re-push the mapped node
      rename_i hall
      split
      · rename_i n0 hget
        have hv0mem : (classNodeId c.filePath c.cls.name?, n0) ∈ st.byId :=
          jsMapGet_eq_some_mem hget
        have hn0id : n0.id = classNodeId c.filePath c.cls.name? :=
          (hEnt _ hv0mem).1
        refine ⟨⟨⟨hEnt, hNd⟩, hSub0, ?_, ?_⟩, fun kv hkv => hkv, ?_, ?_, hhasC⟩
        · intro n hn
          rcases List.mem_append.mp hn with hn | hn
          · exact hNodes n hn
          · have : n = n0 := by simpa using hn
            subst this
            rw [hn0id]
            exact hv0mem
        · intro e he
          rcases List.mem_append.mp he with he | he
          · exact hEdges e he
          · simp only [List.mem_singleton] at he
            subst he
            have hn0fp : n0.filePath = c.filePath :=
              entry_filePath_eq hEnt hv0mem hcshape
            exact ⟨kf.2, n0, hkfentry, hv0mem, by rw [hkffp, hn0fp]⟩
        · exact fun n hn => List.mem_append_left _ hn
        · exact fun kv hkv => Or.inl hkv
      · -- `byId.get` cannot miss a present key
        rename_i hget
        obtain ⟨v, hv⟩ := jsMapGet_some_of_has hhasC
        rw [hv] at hget
        exact absurd hget (by simp)
    · -- already pushed: only the edge is appended
      rename_i hall
      have hex : ∃ n ∈ st.nodes, n.id = classNodeId c.filePath c.cls.name? := by
        by_contra hno
        push_neg at hno
        exact hall (by rw [List.all_eq_true]; intro n hn; simpa using hno n hn)
      refine ⟨⟨⟨hEnt, hNd⟩, hSub0, hNodes, ?_⟩, fun kv hkv => hkv,
        fun n hn => hn, fun kv hkv => Or.inl hkv, hhasC⟩
      intro e he
      rcases List.mem_append.mp he with he | he
      · exact hEdges e he
      · simp only [List.mem_singleton] at he
        subst he
        obtain ⟨n, hn, hnid⟩ := hex
        have hnent : (n.id, n) ∈ st.byId := hNodes n hn
        have hnfp : n.filePath = c.filePath :=
          entry_filePath_eq hEnt (hnid ▸ hnent) hcshape
        exact ⟨kf.2, n, hkfentry, by rw [← hnid]; exact hnent,
          by rw [hkffp, hnfp]⟩

theorem has_of_sub {κ α : Type} [DecidableEq κ] {m m' : List (κ × α)} {k : κ}
    (hsub : ∀ kv ∈ m, kv ∈ m') (h : jsMapHas m k = true) :
    jsMapHas m' k = true := by
  obtain ⟨kv, hkv, hk⟩ := jsMapHas_true_iff.mp h
  exact jsMapHas_true_iff.mpr ⟨kv, hsub _ hkv, hk⟩

/-- The import step preserves the wiring invariant and only grows the state. -/
theorem importStep_inv {byId0 : List (String × GraphNode)} {m : ModuleInfoM}
    {st : WiringState} {im : ClassRefM} (hc : RefClean im)
    (hmid : IdShape m.id m.filePath) (hhas : jsMapHas st.byId m.id = true)
    (hInv : WInv byId0 st) :
    WInv byId0 (importStep m st im) ∧
    (∀ kv ∈ st.byId, kv ∈ (importStep m st im).byId) ∧
    (∀ n ∈ st.nodes, n ∈ (importStep m st im).nodes) ∧
    (∀ kv ∈ (importStep m st im).byId,
      kv ∈ st.byId ∨ kv.2 ∈ (importStep m st im).nodes) := by
  obtain ⟨⟨hEnt, hNd⟩, hSub0, hNodes, hEdges⟩ := hInv
  have htshape : IdShape (moduleNodeId im.filePath im.cls.name?) im.filePath :=
    moduleNodeId_shape hc
  obtain ⟨kf, hkf, hkf1⟩ := jsMapHas_true_iff.mp hhas
  have hkfentry : (m.id, kf.2) ∈ st.byId := by rw [← hkf1]; simpa using hkf
  have hkffp : kf.2.filePath = m.filePath :=
    entry_filePath_eq hEnt hkf (hkf1 ▸ hmid)
  simp only [importStep]
  split
  · -- create the imported module's node
    rename_i hcond
    have hhasT : jsMapHas st.byId (moduleNodeId im.filePath im.cls.name?)
        = false := by simpa using hcond
    refine ⟨⟨⟨?_, jsMapSet_keys_nodup hNd⟩, ?_, ?_, ?_⟩, ?_, ?_, ?_⟩
    · intro kv hkv
      rcases mem_of_mem_jsMapSet hkv with hkv' | hkv'
      · subst hkv'
        exact ⟨rfl, htshape, Or.inl rfl⟩
      · exact hEnt kv hkv'
    · exact fun kv hkv => mem_jsMapSet_of_not_has hhasT (hSub0 kv hkv)
    · intro n hn
      rcases List.mem_append.mp hn with hn | hn
      · exact mem_jsMapSet_of_not_has hhasT (hNodes n hn)
      · simp only [List.mem_singleton] at hn
        subst hn
        exact self_mem_jsMapSet_of_not_has hhasT
    · intro e he
      rcases List.mem_append.mp he with he | he
      · exact EdgeOk_mono (hEdges e he)
          (fun kv hkv => mem_jsMapSet_of_not_has hhasT hkv)
      · simp only [List.mem_singleton] at he
        subst he
        exact ⟨kf.2, _, mem_jsMapSet_of_not_has hhasT hkfentry,
          self_mem_jsMapSet_of_not_has hhasT, by rw [hkffp]⟩
    · exact fun kv hkv => mem_jsMapSet_of_not_has hhasT hkv
    · exact fun n hn => List.mem_append_left _ hn
    · intro kv hkv
      rcases mem_of_mem_jsMapSet hkv with hkv' | hkv'
      · subst hkv'
        exact Or.inr (List.mem_append_right _ (by simp))
      · exact Or.inl hkv'
  · -- the imported module's node already exists
    rename_i hcond
    have hhasT : jsMapHas st.byId (moduleNodeId im.filePath im.cls.name?)
        = true := by simpa using hcond
    obtain ⟨kt, hkt, hkt1⟩ := jsMapHas_true_iff.mp hhasT
    have hktentry : (moduleNodeId im.filePath im.cls.name?, kt.2) ∈ st.byId := by
      rw [← hkt1]; simpa using hkt
    have hktfp : kt.2.filePath = im.filePath :=
      entry_filePath_eq hEnt hkt (hkt1 ▸ htshape)
    refine ⟨⟨⟨hEnt, hNd⟩, hSub0, hNodes, ?_⟩, fun kv hkv => hkv,
      fun n hn => hn, fun kv hkv => Or.inl hkv⟩
    intro e he
    rcases List.mem_append.mp he with he | he
    · exact hEdges e he
    · simp only [List.mem_singleton] at he
      subst he
      exact ⟨kf.2, kt.2, hkfentry, hktentry, by rw [hkffp, hktfp]⟩

/-- Folding `ensureNode` over a list of contained classes. -/
theorem ensure_fold_inv {byId0 : List (String × GraphNode)} {m : ModuleInfoM}
    {sectionLabel : String} {cs : List ClassRefM}
    (hrefs : ∀ c ∈ cs, RefClean c) (hmid : IdShape m.id m.filePath)
    (hhas0 : jsMapHas byId0 m.id = true) :
    ∀ {st : WiringState}, WInv byId0 st →
      WInv byId0 (cs.foldl (ensureNodeStep m sectionLabel) st) ∧
      (∀ kv ∈ st.byId, kv ∈ (cs.foldl (ensureNodeStep m sectionLabel) st).byId) ∧
      (∀ n ∈ st.nodes, n ∈ (cs.foldl (ensureNodeStep m sectionLabel) st).nodes) ∧
      (∀ kv ∈ (cs.foldl (ensureNodeStep m sectionLabel) st).byId,
        kv ∈ st.byId ∨
          kv.2 ∈ (cs.foldl (ensureNodeStep m sectionLabel) st).nodes) ∧
      (∀ c ∈ cs, jsMapHas (cs.foldl (ensureNodeStep m sectionLabel) st).byId
        (classNodeId c.filePath c.cls.name?) = true) := by
  induction cs with
  | nil =>
    intro st hInv
    exact ⟨hInv, fun kv hkv => hkv, fun n hn => hn, fun kv hkv => Or.inl hkv,
      fun c hc => by simp at hc⟩
  | cons c cs' ih =>
    intro st hInv
    have hhas : jsMapHas st.byId m.id = true := has_of_sub hInv.2.1 hhas0
    obtain ⟨hI1, hB1, hN1, hP1, hH1⟩ := ensureNodeStep_inv
      (hrefs c (List.mem_cons_self _ _)) hmid hhas hInv
    obtain ⟨hI2, hB2, hN2, hP2, hH2⟩ :=
      ih (fun x hx => hrefs x (List.mem_cons_of_mem _ hx)) hI1
    refine ⟨hI2, fun kv hkv => hB2 _ (hB1 _ hkv), fun n hn => hN2 _ (hN1 _ hn),
      ?_, ?_⟩
    · intro kv hkv
      rcases hP2 kv hkv with h | h
      · rcases hP1 kv h with h' | h'
        · exact Or.inl h'
        · exact Or.inr (hN2 _ h')
      · exact Or.inr h
    · intro x hx
      rcases List.mem_cons.mp hx with hx | hx
      · subst hx
        exact has_of_sub hB2 hH1
      · exact hH2 x hx

/-- Folding the import step over the imported modules. -/
theorem import_fold_inv {byId0 : List (String × GraphNode)} {m : ModuleInfoM}
    {ims : List ClassRefM} (hrefs : ∀ c ∈ ims, RefClean c)
    (hmid : IdShape m.id m.filePath) (hhas0 : jsMapHas byId0 m.id = true) :
    ∀ {st : WiringState}, WInv byId0 st →
      WInv byId0 (ims.foldl (importStep m) st) ∧
      (∀ kv ∈ st.byId, kv ∈ (ims.foldl (importStep m) st).byId) ∧
      (∀ n ∈ st.nodes, n ∈ (ims.foldl (importStep m) st).nodes) ∧
      (∀ kv ∈ (ims.foldl (importStep m) st).byId,
        kv ∈ st.byId ∨ kv.2 ∈ (ims.foldl (importStep m) st).nodes) := by
  induction ims with
  | nil =>
    intro st hInv
    exact ⟨hInv, fun kv hkv => hkv, fun n hn => hn, fun kv hkv => Or.inl hkv⟩
  | cons c cs' ih =>
    intro st hInv
    have hhas : jsMapHas st.byId m.id = true := has_of_sub hInv.2.1 hhas0
    obtain ⟨hI1, hB1, hN1, hP1⟩ := importStep_inv
      (hrefs c (List.mem_cons_self _ _)) hmid hhas hInv
    obtain ⟨hI2, hB2, hN2, hP2⟩ :=
      ih (fun x hx => hrefs x (List.mem_cons_of_mem _ hx)) hI1
    refine ⟨hI2, fun kv hkv => hB2 _ (hB1 _ hkv), fun n hn => hN2 _ (hN1 _ hn),
      ?_⟩
    intro kv hkv
    rcases hP2 kv hkv with h | h
    · rcases hP1 kv h with h' | h'
      · exact Or.inl h'
      · exact Or.inr (hN2 _ h')
    · exact Or.inr h

/-- One iteration of the module loop. -/
theorem processModule_inv {byId0 : List (String × GraphNode)}
    {st : WiringState} {m : ModuleInfoM} (hmod : ModOk m)
    (hhas0 : jsMapHas byId0 m.id = true) (hInv : WInv byId0 st) :
    WInv byId0 (processModule st m) ∧
    (∀ kv ∈ st.byId, kv ∈ (processModule st m).byId) ∧
    (∀ n ∈ st.nodes, n ∈ (processModule st m).nodes) ∧
    (∀ kv ∈ (processModule st m).byId,
      kv ∈ st.byId ∨ kv.2 ∈ (processModule st m).nodes) ∧
    (∀ c ∈ m.controllers ++ m.providers,
      jsMapHas (processModule st m).byId
        (classNodeId c.filePath c.cls.name?) = true) ∧
    (∀ kv ∈ st.byId, kv.1 = m.id → kv.2 ∈ (processModule st m).nodes) := by
  obtain ⟨hmid, hrefs⟩ := hmod
  have hrefsC : ∀ c ∈ m.controllers, RefClean c := fun c hc =>
    hrefs c (List.mem_append_left _ (List.mem_append_left _ hc))
  have hrefsP : ∀ c ∈ m.providers, RefClean c := fun c hc =>
    hrefs c (List.mem_append_left _ (List.mem_append_right _ hc))
  have hrefsI : ∀ c ∈ m.importedModules, RefClean c := fun c hc =>
    hrefs c (List.mem_append_right _ hc)
  obtain ⟨⟨hEnt, hNd⟩, hSub0, hNodes, hEdges⟩ := hInv
  have hhas : jsMapHas st.byId m.id = true :=
    has_of_sub hSub0 hhas0
  obtain ⟨v, hv⟩ := jsMapGet_some_of_has hhas
  have hventry : (m.id, v) ∈ st.byId := jsMapGet_eq_some_mem hv
  have hvid : v.id = m.id := (hEnt _ hventry).1
  -- the state after pushing the module node
  have hpush : WInv byId0 { st with nodes := st.nodes ++ [v] } := by
    refine ⟨⟨hEnt, hNd⟩, hSub0, ?_, ?_⟩
    · intro n hn
      rcases List.mem_append.mp hn with hn | hn
      · exact hNodes n hn
      · simp only [List.mem_singleton] at hn
        subst hn
        rw [hvid]
        exact hventry
    · exact fun e he => hEdges e he
  simp only [processModule, hv]
  obtain ⟨hI1, hB1, hN1, hP1, hH1⟩ :=
    ensure_fold_inv hrefsC hmid hhas0 hpush
  obtain ⟨hI2, hB2, hN2, hP2, hH2⟩ :=
    ensure_fold_inv hrefsP hmid hhas0 hI1
  obtain ⟨hI3, hB3, hN3, hP3⟩ :=
    import_fold_inv hrefsI hmid hhas0 hI2
  refine ⟨hI3, ?_, ?_, ?_, ?_, ?_⟩
  · exact fun kv hkv => hB3 _ (hB2 _ (hB1 _ hkv))
  · exact fun n hn => hN3 _ (hN2 _ (hN1 _ (List.mem_append_left _ hn)))
  · intro kv hkv
    rcases hP3 kv hkv with h | h
    · rcases hP2 kv h with h' | h'
      · rcases hP1 kv h' with h'' | h''
        · exact Or.inl h''
        · exact Or.inr (hN3 _ (hN2 _ h''))
      · exact Or.inr (hN3 _ h')
    · exact Or.inr h
  · intro c hc
    rcases List.mem_append.mp hc with hc | hc
    · exact has_of_sub hB3 (has_of_sub hB2 (hH1 c hc))
    · exact has_of_sub hB3 (hH2 c hc)
  · intro kv hkv hk1
    have : v = kv.2 := by
      have hg : jsMapGet st.byId m.id = some kv.2 :=
        jsMapGet_of_mem_nodup hNd (by rw [← hk1]; simpa using hkv)
      rw [hv] at hg
      simpa using hg
    subst this
    exact hN3 _ (hN2 _ (hN1 _ (List.mem_append_right _ (by simp))))

/-- Folding the module loop over all modules. -/
theorem modules_fold_inv {byId0 : List (String × GraphNode)}
    {mods : List ModuleInfoM}
    (hmods : ∀ m ∈ mods, ModOk m ∧ jsMapHas byId0 m.id = true) :
    ∀ {st : WiringState}, WInv byId0 st →
      WInv byId0 (mods.foldl processModule st) ∧
      (∀ kv ∈ st.byId, kv ∈ (mods.foldl processModule st).byId) ∧
      (∀ n ∈ st.nodes, n ∈ (mods.foldl processModule st).nodes) ∧
      (∀ m ∈ mods, ∀ c ∈ m.controllers ++ m.providers,
        jsMapHas (mods.foldl processModule st).byId
          (classNodeId c.filePath c.cls.name?) = true) := by
  induction mods with
  | nil =>
    intro st hInv
    exact ⟨hInv, fun kv hkv => hkv, fun n hn => hn, fun m hm => by simp at hm⟩
  | cons m mods' ih =>
    intro st hInv
    obtain ⟨hm1, hm2⟩ := hmods m (List.mem_cons_self _ _)
    obtain ⟨hI1, hB1, hN1, hP1, hH1, hPush1⟩ := processModule_inv hm1 hm2 hInv
    obtain ⟨hI2, hB2, hN2, hH2⟩ :=
      ih (fun x hx => hmods x (List.mem_cons_of_mem _ hx)) hI1
    refine ⟨hI2, fun kv hkv => hB2 _ (hB1 _ hkv),
      fun n hn => hN2 _ (hN1 _ hn), ?_⟩
    intro x hx c hc
    rcases List.mem_cons.mp hx with hx | hx
    · subst hx
      exact has_of_sub hB2 (hH1 c hc)
    · exact hH2 x hx c hc

/-- After the module loop, every mapped node has been pushed to the node
array. -/
theorem modules_fold_cover {byId0 : List (String × GraphNode)}
    {mods : List ModuleInfoM}
    (hmods : ∀ m ∈ mods, ModOk m ∧ jsMapHas byId0 m.id = true) :
    ∀ {st : WiringState}, WInv byId0 st →
      (∀ kv ∈ st.byId, kv.2 ∈ st.nodes ∨ ∃ m ∈ mods, m.id = kv.1) →
      ∀ kv ∈ (mods.foldl processModule st).byId,
        kv.2 ∈ (mods.foldl processModule st).nodes := by
  induction mods with
  | nil =>
    intro st hInv hCov kv hkv
    rcases hCov kv hkv with h | ⟨m, hm, _⟩
    · exact h
    · simp at hm
  | cons m mods' ih =>
    intro st hInv hCov
    obtain ⟨hm1, hm2⟩ := hmods m (List.mem_cons_self _ _)
    obtain ⟨hI1, hB1, hN1, hP1, hH1, hPush1⟩ := processModule_inv hm1 hm2 hInv
    refine ih (fun x hx => hmods x (List.mem_cons_of_mem _ hx)) hI1 ?_
    intro kv hkv
    rcases hP1 kv hkv with h | h
    · rcases hCov kv h with h' | ⟨m', hm', hmid'⟩
      · exact Or.inl (hN1 _ h')
      · rcases List.mem_cons.mp hm' with hm'' | hm''
        · subst hm''
          exact Or.inl (hPush1 kv h hmid'.symm)
        · exact Or.inr ⟨m', hm'', hmid'⟩
    · exact Or.inl h

theorem entries_eq_of_nodup {κ α : Type} [DecidableEq κ]
    {m : List (κ × α)} {k : κ} {v1 v2 : α} (hnd : (m.map (·.1)).Nodup)
    (h1 : (k, v1) ∈ m) (h2 : (k, v2) ∈ m) : v1 = v2 := by
  have g1 := jsMapGet_of_mem_nodup hnd h1
  have g2 := jsMapGet_of_mem_nodup hnd h2
  rw [g1] at g2
  simpa using g2

/-- The facts delivered by the module scan and module loop together. -/
theorem wiring_st_facts {proj : ProjectM} (fps : List String)
    (hcl : cleanProject proj = true) :
    WInv (scanModules proj fps).byId (wiringState proj fps) ∧
    (∀ kv ∈ (wiringState proj fps).byId, kv.2 ∈ (wiringState proj fps).nodes) ∧
    (∀ m ∈ (scanModules proj fps).modules, ∀ c ∈ m.controllers ++ m.providers,
      jsMapHas (wiringState proj fps).byId
        (classNodeId c.filePath c.cls.name?) = true) := by
  obtain ⟨hEnt0, hNd0, hMods0⟩ := scanModules_inv proj fps hcl
  have hInv0 : WInv (scanModules proj fps).byId
      ⟨(scanModules proj fps).byId, [], []⟩ := by
    refine ⟨⟨fun kv hkv => (hEnt0 kv hkv).1, hNd0⟩, fun kv hkv => hkv, ?_, ?_⟩
    · intro n hn; simp at hn
    · intro e he; simp at he
  have hmods : ∀ m ∈ (scanModules proj fps).modules,
      ModOk m ∧ jsMapHas (scanModules proj fps).byId m.id = true := hMods0
  obtain ⟨hI, hB, hN, hH⟩ := modules_fold_inv hmods hInv0
  have hcover := modules_fold_cover hmods hInv0 (fun kv hkv =>
    Or.inr (hEnt0 kv hkv).2.2)
  exact ⟨hI, hcover, hH⟩

/-- Every injection edge satisfies `EdgeOk` for the node map it queried. -/
theorem diEdgesForClass_edgeOk {proj : ProjectM}
    {byId : List (String × GraphNode)} {id : String} {cls : ClassDeclM}
    {e : GraphEdge} (hEnt : ∀ kv ∈ byId, EntryOk kv)
    (h : e ∈ diEdgesForClass proj byId id cls) : EdgeOk byId e := by
  unfold diEdgesForClass at h
  cases hctor : cls.ctors.head? with
  | none => rw [hctor] at h; simp at h
  | some ctor =>
    rw [hctor] at h
    rcases List.mem_filterMap.mp h with ⟨p, hp, hsome⟩
    cases htgt : diTargetOfParam proj p with
    | none => rw [htgt] at hsome; simp at hsome
    | some target =>
      rw [htgt] at hsome
      simp only at hsome
      split at hsome
      · rename_i hhasT
        cases hgf : jsMapGet byId id with
        | none => rw [hgf] at hsome; simp at hsome
        | some fromNode =>
          cases hgt : jsMapGet byId
              (classNodeId target.filePath target.cls.name?) with
          | none => rw [hgf, hgt] at hsome; simp at hsome
          | some toNode =>
            rw [hgf, hgt] at hsome
            simp only [Option.some_inj] at hsome
            subst hsome
            have hf := jsMapGet_eq_some_mem hgf
            have ht := jsMapGet_eq_some_mem hgt
            have hfid : fromNode.id = id := (hEnt _ hf).1
            have htid : toNode.id =
                classNodeId target.filePath target.cls.name? := (hEnt _ ht).1
            exact ⟨fromNode, toNode, by rw [hfid]; exact hf,
              by rw [htid]; exact ht, rfl⟩
      · exact absurd hsome (by simp)

theorem analyzeWiringGraph_nodes_eq (proj : ProjectM) (fps : List String) :
    (analyzeWiringGraph proj fps).nodes =
      dedupByKey nodeKey (wiringState proj fps).nodes := rfl

theorem analyzeWiringGraph_edges_eq (proj : ProjectM) (fps : List String) :
    (analyzeWiringGraph proj fps).edges =
      dedupByKey edgeKey ((wiringState proj fps).edges ++
        diEdges proj (wiringState proj fps).byId
          (classDeclsById proj (wiringState proj fps).nodes)) := rfl

/-- Every edge of the assembled wiring graph satisfies `EdgeOk`. -/
theorem analyzeWiringGraph_edgeOk {proj : ProjectM} {fps : List String}
    {e : GraphEdge} (hcl : cleanProject proj = true)
    (h : e ∈ (analyzeWiringGraph proj fps).edges) :
    EdgeOk (wiringState proj fps).byId e := by
  rw [analyzeWiringGraph_edges_eq] at h
  have h' := mem_of_mem_dedupByKey edgeKey h
  obtain ⟨hI, _, _⟩ := wiring_st_facts fps hcl
  rcases List.mem_append.mp h' with h'' | h''
  · exact hI.2.2.2 e h''
  · unfold diEdges at h''
    rcases List.mem_flatMap.mp h'' with ⟨kv, _, hkv⟩
    exact diEdgesForClass_edgeOk hI.1.1 hkv

/-- The edge key `from + "|" + to` determines the ordered pair whenever the
`from` ids are free of `|`. -/
theorem edgeKey_pair_inj {e1 e2 : GraphEdge}
    (h1 : ('|' : Char) ∉ e1.fromId.data) (h2 : ('|' : Char) ∉ e2.fromId.data)
    (h : edgeKey e1 = edgeKey e2) : e1.fromId = e2.fromId ∧ e1.toId = e2.toId := by
  unfold edgeKey at h
  have hd := congrArg String.data h
  simp only [String.data_append] at hd
  have hform : ∀ (f t : List Char), f ++ ['|'] ++ t = f ++ '|' :: t := by simp
  rw [hform, hform] at hd
  obtain ⟨hf, ht⟩ := append_sep_inj h1 h2 hd
  exact ⟨String.ext hf, String.ext ht⟩

theorem flatMap_filter_none {α β : Type} (g : α → List β) (q : α → Bool)
    (h : ∀ a, q a = false → g a = []) :
    ∀ l : List α, l.flatMap g = (l.filter q).flatMap g := by
  intro l
  induction l with
  | nil => rfl
  | cons a t ih =>
    by_cases hq : q a = true
    · simp [List.filter_cons, hq, ih]
    · have hq' : q a = false := by simpa using hq
      simp [List.filter_cons, hq', h a hq', ih]

theorem foldl_filter_id {α σ : Type} (g : σ → α → σ) (q : α → Bool)
    (h : ∀ s a, q a = false → g s a = s) :
    ∀ (l : List α) (s : σ), (l.filter q).foldl g s = l.foldl g s := by
  intro l
  induction l with
  | nil => intro s; rfl
  | cons a t ih =>
    intro s
    by_cases hq : q a = true
    · simp only [List.filter_cons, hq, if_pos rfl, List.foldl_cons]
      exact ih (g s a)
    · have hq' : q a = false := by simpa using hq
      simp only [List.filter_cons, hq']
      rw [List.foldl_cons, h s a hq']
      exact ih s

/-! # Claim theorems -/

/-- **C1** counterexample: `analyzeWiringGraph` records an edge with
`from == to` when a module's metadata lists the module itself under
`imports`, so the claim is false for the wiring graph's edges. -/
theorem C1_counterexample_self_loop :
    ((analyzeWiringGraph exSelfImportProj exSelfImportPaths).edges.any
      (fun e => e.fromId == e.toId)) = true := by decide

/-- **C1** (amended): the no-self-loop guarantee holds for the call graph:
every edge returned by `analyzeDirectoryGraph` has `from ≠ to` (the guard at
line 439 of the source); `analyzeWiringGraph` has no such guard and can emit
self-loops. -/
theorem C1_no_self_loops_in_call_graph :
    ∀ (proj : ProjectM) (fps : List String),
      ∀ e ∈ (analyzeDirectoryGraph proj fps).edges, e.fromId ≠ e.toId := by
  intro proj fps e he
  rw [analyzeDirectoryGraph_edges_eq] at he
  obtain ⟨caller, callee, _, _, hne, hE⟩ :=
    mem_callEdges (mem_of_mem_dedupByKey edgeKey he)
  subst hE
  exact hne

/-- **C1** witness: the guarantee evaluated on the two-file example. -/
theorem C1_no_self_loops_witness : exDirE0.fromId ≠ exDirE0.toId :=
  C1_no_self_loops_in_call_graph exDirProj exDirPaths exDirE0 (by decide)

/-- **C3** counterexample: two distinct function declarations named `f` with
identical (empty) parameter lists — as produced by an overload signature and
its implementation — receive the same identifier, so the collected callable
ids are not pairwise distinct. -/
theorem C3_counterexample_duplicate_ids :
    ¬ ((collectCallables exDupProj ["/proj/src/dup.ts"]).map (·.id)).Nodup := by
  decide

/-- **C3** (amended): in a project with clean declared names, a collected
callable's id is determined exactly by its file path, qualified name, and the
`shortHash` of its signature key; ids are distinct iff one of the three
differs.  In particular two anonymous callables are distinguished only when
their signature keys hash differently — identical parameter type lists give
identical ids. -/
theorem C3_id_determined_by_components :
    ∀ (proj : ProjectM) (fps : List String), cleanProject proj = true →
      ∀ c1 ∈ collectCallables proj fps, ∀ c2 ∈ collectCallables proj fps,
        (c1.id = c2.id ↔ (c1.filePath = c2.filePath ∧
          c1.qualName = c2.qualName ∧
          shortHash c1.sigKey = shortHash c2.sigKey)) := by
  intro proj fps hcl c1 h1 c2 h2
  exact collected_id_iff hcl h1 h2

/-- **C3** witness: the component characterization evaluated on the duplicate
example. -/
theorem C3_id_witness :
    exDupC0.id = exDupC1.id ↔ (exDupC0.filePath = exDupC1.filePath ∧
      exDupC0.qualName = exDupC1.qualName ∧
      shortHash exDupC0.sigKey = shortHash exDupC1.sigKey) :=
  C3_id_determined_by_components exDupProj ["/proj/src/dup.ts"] (by decide)
    exDupC0 (by decide) exDupC1 (by decide)

/-- **C4** counterexample: a class named `XModule` decorated with
`@Controller()` is classified as `module` — the name-suffix rule of an
earlier role beats the decorator of a later role, so "a decorator match
always takes priority over any name-suffix match of a different role" is
false. -/
theorem C4_counterexample_suffix_beats_decorator :
    getClassRole exRoleCls "/src/x.ts" = some "module" ∧
      exRoleCls.decos.map (·.name?) = [some "Controller"] :=
  ⟨by decide, by decide⟩

/-- **C4** (amended): `getClassRole` tests the roles in the fixed order
module, controller, service, provider; each role's condition is "decorator
name OR naming convention" (module additionally matches a `.module.` file
base name), so a name-suffix match of an earlier role beats a decorator of a
later role, and `Injectable` yields `service` (never `provider`) whenever the
module and controller conditions fail. -/
theorem C4_role_rule_order :
    ∀ (cls : ClassDeclM) (fp : String),
      (((cls.decos.map (·.name?)).contains (some "Module") = true ∨
          endsWithCI (jsOrDefault cls.name? "") "module" = true ∨
          hasModuleInfix (baseNameOf fp) = true) →
        getClassRole cls fp = some "module") ∧
      ((cls.decos.map (·.name?)).contains (some "Module") = false →
        endsWithCI (jsOrDefault cls.name? "") "module" = false →
        hasModuleInfix (baseNameOf fp) = false →
        (((cls.decos.map (·.name?)).contains (some "Controller") = true ∨
            endsWithCI (jsOrDefault cls.name? "") "controller" = true) →
          getClassRole cls fp = some "controller") ∧
        ((cls.decos.map (·.name?)).contains (some "Controller") = false →
          endsWithCI (jsOrDefault cls.name? "") "controller" = false →
          (((cls.decos.map (·.name?)).contains (some "Injectable") = true ∨
              endsWithCI (jsOrDefault cls.name? "") "service" = true) →
            getClassRole cls fp = some "service") ∧
          ((cls.decos.map (·.name?)).contains (some "Injectable") = false →
            endsWithCI (jsOrDefault cls.name? "") "service" = false →
            (endsWithCI (jsOrDefault cls.name? "") "provider" = true →
              getClassRole cls fp = some "provider") ∧
            (endsWithCI (jsOrDefault cls.name? "") "provider" = false →
              getClassRole cls fp = none)))) := by
  intro cls fp
  have hrfl : getClassRole cls fp =
      (if ((cls.decos.map (·.name?)).contains (some "Module") ||
            endsWithCI (jsOrDefault cls.name? "") "module" ||
            hasModuleInfix (baseNameOf fp)) = true then some "module"
       else if ((cls.decos.map (·.name?)).contains (some "Controller") ||
            endsWithCI (jsOrDefault cls.name? "") "controller") = true then
         some "controller"
       else if ((cls.decos.map (·.name?)).contains (some "Injectable") ||
            endsWithCI (jsOrDefault cls.name? "") "service") = true then
         some "service"
       else if ((cls.decos.map (·.name?)).contains (some "Injectable") ||
            endsWithCI (jsOrDefault cls.name? "") "provider") = true then
         some "provider"
       else none) := rfl
  constructor
  · intro h
    have hc : ((cls.decos.map (·.name?)).contains (some "Module") ||
        endsWithCI (jsOrDefault cls.name? "") "module" ||
        hasModuleInfix (baseNameOf fp)) = true := by
      rcases h with h | h | h <;> simp only [h, Bool.true_or, Bool.or_true]
    rw [hrfl, if_pos hc]
  · intro h1 h2 h3
    have hcf : ((cls.decos.map (·.name?)).contains (some "Module") ||
        endsWithCI (jsOrDefault cls.name? "") "module" ||
        hasModuleInfix (baseNameOf fp)) = false := by
      simp only [h1, h2, h3, Bool.or_false]
    rw [hrfl, if_neg (by rw [hcf]; exact Bool.false_ne_true)]
    constructor
    · intro h
      have hc : ((cls.decos.map (·.name?)).contains (some "Controller") ||
          endsWithCI (jsOrDefault cls.name? "") "controller") = true := by
        rcases h with h | h <;> simp only [h, Bool.true_or, Bool.or_true]
      rw [if_pos hc]
    · intro h4 h5
      have hcf2 : ((cls.decos.map (·.name?)).contains (some "Controller") ||
          endsWithCI (jsOrDefault cls.name? "") "controller") = false := by
        simp only [h4, h5, Bool.or_false]
      rw [if_neg (by rw [hcf2]; exact Bool.false_ne_true)]
      constructor
      · intro h
        have hc : ((cls.decos.map (·.name?)).contains (some "Injectable") ||
            endsWithCI (jsOrDefault cls.name? "") "service") = true := by
          rcases h with h | h <;> simp only [h, Bool.true_or, Bool.or_true]
        rw [if_pos hc]
      · intro h6 h7
        have hcf3 : ((cls.decos.map (·.name?)).contains (some "Injectable") ||
            endsWithCI (jsOrDefault cls.name? "") "service") = false := by
          simp only [h6, h7, Bool.or_false]
        rw [if_neg (by rw [hcf3]; exact Bool.false_ne_true)]
        constructor
        · intro h
          have hc : ((cls.decos.map (·.name?)).contains (some "Injectable") ||
              endsWithCI (jsOrDefault cls.name? "") "provider") = true := by
            simp only [h, Bool.or_true]
          rw [if_pos hc]
        · intro h8
          have hcf4 : ((cls.decos.map (·.name?)).contains (some "Injectable") ||
              endsWithCI (jsOrDefault cls.name? "") "provider") = false := by
            simp only [h6, h8, Bool.or_false]
          rw [if_neg (by rw [hcf4]; exact Bool.false_ne_true)]

/-- **C4** witness: the controller rule evaluated on a plain
`@Controller() class X`. -/
theorem C4_role_witness : getClassRole exCtrlCls "/src/x.ts" = some "controller" :=
  ((C4_role_rule_order exCtrlCls "/src/x.ts").2 (by decide) (by decide)
    (by decide)).1 (Or.inl (by decide))

/-- **C5**: analysis is deterministic — repeated runs of any of the three
entry points on the same `(project, filePaths)` input produce the same node
id set and edge set (the embedding of the engine is a pure function of its
input; the source has no other inputs: no randomness, time, or retained
state between runs). -/
theorem C5_determinism :
    ∀ (proj : ProjectM) (fps : List String),
      ((analyzeDirectoryGraph proj fps).nodes.map (·.id)).toFinset =
        ((analyzeDirectoryGraph proj fps).nodes.map (·.id)).toFinset ∧
      (analyzeDirectoryGraph proj fps).edges.toFinset =
        (analyzeDirectoryGraph proj fps).edges.toFinset ∧
      ((analyzeWiringGraph proj fps).nodes.map (·.id)).toFinset =
        ((analyzeWiringGraph proj fps).nodes.map (·.id)).toFinset ∧
      (analyzeWiringGraph proj fps).edges.toFinset =
        (analyzeWiringGraph proj fps).edges.toFinset ∧
      ((analyzeDirectoryModules proj fps).nodes.map (·.id)).toFinset =
        ((analyzeDirectoryModules proj fps).nodes.map (·.id)).toFinset ∧
      (analyzeDirectoryModules proj fps).edges.toFinset =
        (analyzeDirectoryModules proj fps).edges.toFinset :=
  fun _ _ => ⟨rfl, rfl, rfl, rfl, rfl, rfl⟩

/-- **C8**: the dependency-injection pass inspects only the first declared
constructor of a class — its per-class edges are unchanged when secondary
constructors are dropped — and a class with no constructor yields no
injection edges; the pass is the concatenation of these per-class edge
lists. -/
theorem C8_first_constructor_only :
    ∀ (proj : ProjectM) (byId : List (String × GraphNode)) (id : String)
      (cls : ClassDeclM),
      diEdgesForClass proj byId id cls =
        diEdgesForClass proj byId id { cls with ctors := cls.ctors.take 1 } ∧
      (cls.ctors = [] → diEdgesForClass proj byId id cls = []) ∧
      (∀ classesById : List (String × ClassDeclM),
        diEdges proj byId classesById =
          classesById.flatMap (fun kv => diEdgesForClass proj byId kv.1 kv.2)) := by
  intro proj byId id cls
  refine ⟨?_, ?_, fun _ => rfl⟩
  · cases hc : cls.ctors with
    | nil => simp [diEdgesForClass, hc]
    | cons a t => simp [diEdgesForClass, hc]
  · intro h
    simp [diEdgesForClass, h]

/-- **C8** witness: a class with no explicit constructor produces no
injection edges. -/
theorem C8_no_ctor_witness :
    diEdgesForClass exWirProj [] "x" exServiceCls = [] :=
  (C8_first_constructor_only exWirProj [] "x" exServiceCls).2.1 rfl

/-- **C6**: graph assembly deduplicates nodes by exact id and edges by the
ordered `(from, to)` pair with last-write-wins semantics — in the assembled
lists any two nodes with the same id (edges with the same pair) are equal,
the survivor for each key is the last raw entry with that key, the edge pair
is recovered from the key whenever `from` ids contain no `|` — and the
deduplication is idempotent.  The last conjunct ties the deduplication to
the two assembly functions definitionally. -/
theorem C6_dedup_semantics :
    (∀ l : List GraphNode,
      dedupByKey nodeKey (dedupByKey nodeKey l) = dedupByKey nodeKey l) ∧
    (∀ l : List GraphEdge,
      dedupByKey edgeKey (dedupByKey edgeKey l) = dedupByKey edgeKey l) ∧
    (∀ l : List GraphNode, ∀ n1 ∈ dedupByKey nodeKey l,
      ∀ n2 ∈ dedupByKey nodeKey l, n1.id = n2.id → n1 = n2) ∧
    (∀ l : List GraphNode, ∀ n ∈ dedupByKey nodeKey l,
      (l.filter (fun x => nodeKey x = nodeKey n)).getLast? = some n) ∧
    (∀ l : List GraphEdge, ∀ e1 ∈ dedupByKey edgeKey l,
      ∀ e2 ∈ dedupByKey edgeKey l,
      e1.fromId = e2.fromId → e1.toId = e2.toId → e1 = e2) ∧
    (∀ l : List GraphEdge, (∀ e ∈ l, ('|' : Char) ∉ e.fromId.data) →
      ∀ e ∈ dedupByKey edgeKey l, ('|' : Char) ∉ e.fromId.data →
      (l.filter (fun x => x.fromId = e.fromId ∧ x.toId = e.toId)).getLast? =
        some e) ∧
    (∀ (proj : ProjectM) (fps : List String),
      (analyzeDirectoryGraph proj fps).nodes =
        dedupByKey nodeKey ((collectCallables proj fps).map nodeOfCallable) ∧
      (analyzeDirectoryGraph proj fps).edges =
        dedupByKey edgeKey (callEdges (collectCallables proj fps)
          (callablesByDecl (collectCallables proj fps)))) := by
  refine ⟨fun l => dedupByKey_idem _ l, fun l => dedupByKey_idem _ l,
    ?_, ?_, ?_, ?_, fun proj fps => ⟨rfl, rfl⟩⟩
  · intro l n1 h1 n2 h2 hid
    exact dedupByKey_inj nodeKey h1 h2 hid
  · intro l n hn
    exact dedupByKey_getLast nodeKey hn
  · intro l e1 h1 e2 h2 hf ht
    refine dedupByKey_inj edgeKey h1 h2 ?_
    unfold edgeKey
    rw [hf, ht]
  · intro l hbar e he hebar
    have hlast := dedupByKey_getLast edgeKey he
    have hcongr : l.filter (fun z => edgeKey z = edgeKey e) =
        l.filter (fun x => x.fromId = e.fromId ∧ x.toId = e.toId) := by
      refine List.filter_congr (fun x hx => ?_)
      have hiff : (edgeKey x = edgeKey e) ↔
          (x.fromId = e.fromId ∧ x.toId = e.toId) := by
        constructor
        · intro hk
          exact edgeKey_pair_inj (hbar x hx) hebar hk
        · rintro ⟨ha, hb⟩
          unfold edgeKey
          rw [ha, hb]
      simp only [decide_eq_decide]
      exact hiff
    rw [hcongr] at hlast
    exact hlast

/-- **C6** witness: deduplication facts evaluated on a raw list with a
duplicated `("a", "b")` pair. -/
theorem C6_dedup_witness :
    (dedupByKey edgeKey (dedupByKey edgeKey exEdgesRaw) =
      dedupByKey edgeKey exEdgesRaw) ∧
    (exEdgesRaw.filter (fun x =>
      x.fromId = exEdgesD0.fromId ∧ x.toId = exEdgesD0.toId)).getLast? =
        some exEdgesD0 :=
  ⟨C6_dedup_semantics.2.1 exEdgesRaw,
    C6_dedup_semantics.2.2.2.2.2.1 exEdgesRaw (by decide) exEdgesD0
      (by decide) (by decide)⟩

/-- **C9**: on empty input each entry point returns the empty graph (the
embedding is total, so no error is possible), and listed file paths with no
source file in the project are skipped without contributing anything: the
result equals the result on the file list with the missing paths filtered
out. -/
theorem C9_empty_and_missing :
    analyzeDirectoryGraph (buildProjectAndAnalyze []) [] = ⟨[], []⟩ ∧
    analyzeWiringGraph (buildProjectAndAnalyze []) [] = ⟨[], []⟩ ∧
    analyzeDirectoryModules (buildProjectAndAnalyze []) [] = ⟨[], []⟩ ∧
    (∀ (proj : ProjectM) (fps : List String),
      analyzeDirectoryGraph proj fps =
        analyzeDirectoryGraph proj
          (fps.filter (fun p => (proj.getSourceFileIdx p).isSome)) ∧
      analyzeWiringGraph proj fps =
        analyzeWiringGraph proj
          (fps.filter (fun p => (proj.getSourceFileIdx p).isSome)) ∧
      analyzeDirectoryModules proj fps =
        analyzeDirectoryModules proj
          (fps.filter (fun p => (proj.getSourceFileIdx p).isSome))) := by
  refine ⟨rfl, rfl, rfl, fun proj fps => ⟨?_, ?_, ?_⟩⟩
  · have hc : collectCallables proj fps =
        collectCallables proj
          (fps.filter (fun p => (proj.getSourceFileIdx p).isSome)) := by
      unfold collectCallables
      refine flatMap_filter_none _ _ (fun p hp => ?_) fps
      cases hgs : proj.getSourceFileIdx p with
      | none => rfl
      | some isf => rw [hgs] at hp; simp at hp
    simp only [analyzeDirectoryGraph, hc]
  · have hs : scanModules proj fps =
        scanModules proj
          (fps.filter (fun p => (proj.getSourceFileIdx p).isSome)) := by
      unfold scanModules
      rw [foldl_filter_id _ _ (fun st p hp => ?_)]
      cases hgs : proj.getSourceFileIdx p with
      | none => rfl
      | some isf => rw [hgs] at hp; simp at hp
    simp only [analyzeWiringGraph, wiringState, hs]
  · have hm : fps.flatMap (moduleNodesOfFile proj) =
        (fps.filter (fun p => (proj.getSourceFileIdx p).isSome)).flatMap
          (moduleNodesOfFile proj) := by
      refine flatMap_filter_none _ _ (fun p hp => ?_) fps
      unfold moduleNodesOfFile
      cases hgs : proj.getSourceFileIdx p with
      | none => rfl
      | some isf => rw [hgs] at hp; simp at hp
    simp only [analyzeDirectoryModules, hm]

/-- **C2**: in every graph returned by either entry point, each edge's
`crossFile` flag equals whether the simplified file paths of its two endpoint
nodes differ (for models whose declared names are clean TypeScript
identifiers, so that node ids are collision-free). -/
theorem C2_crossFile_flag :
    ∀ (proj : ProjectM) (fps : List String), cleanProject proj = true →
      (∀ e ∈ (analyzeDirectoryGraph proj fps).edges,
        ∀ nf ∈ (analyzeDirectoryGraph proj fps).nodes,
        ∀ nt ∈ (analyzeDirectoryGraph proj fps).nodes,
        nf.id = e.fromId → nt.id = e.toId →
        e.crossFile =
          decide (simplifyPath nf.filePath ≠ simplifyPath nt.filePath)) ∧
      (∀ e ∈ (analyzeWiringGraph proj fps).edges,
        ∀ nf ∈ (analyzeWiringGraph proj fps).nodes,
        ∀ nt ∈ (analyzeWiringGraph proj fps).nodes,
        nf.id = e.fromId → nt.id = e.toId →
        e.crossFile =
          decide (simplifyPath nf.filePath ≠ simplifyPath nt.filePath)) := by
  intro proj fps hcl
  constructor
  · intro e he nf hnf nt hnt hfid htid
    rw [analyzeDirectoryGraph_edges_eq] at he
    obtain ⟨caller, callee, hcm, hcem, hne, hE⟩ :=
      mem_callEdges (mem_of_mem_dedupByKey edgeKey he)
    rw [analyzeDirectoryGraph_nodes_eq] at hnf hnt
    obtain ⟨cf, hcf, hnfE⟩ :=
      List.mem_map.mp (mem_of_mem_dedupByKey nodeKey hnf)
    obtain ⟨ct, hct, hntE⟩ :=
      List.mem_map.mp (mem_of_mem_dedupByKey nodeKey hnt)
    subst hE hnfE hntE
    have hfeq : cf.id = caller.id := hfid
    have hteq : ct.id = callee.id := htid
    have h1 := ((collected_id_iff hcl hcf hcm).mp hfeq).1
    have h2 := ((collected_id_iff hcl hct hcem).mp hteq).1
    show decide (simplifyPath caller.filePath ≠ simplifyPath callee.filePath) =
      decide (simplifyPath cf.filePath ≠ simplifyPath ct.filePath)
    rw [h1, h2]
  · intro e he nf hnf nt hnt hfid htid
    obtain ⟨vf, vt, hvf, hvt, hcfeq⟩ := analyzeWiringGraph_edgeOk hcl he
    obtain ⟨hI, hcov, _⟩ := wiring_st_facts fps hcl
    rw [analyzeWiringGraph_nodes_eq] at hnf hnt
    have hnf' : (e.fromId, nf) ∈ (wiringState proj fps).byId := by
      rw [← hfid]
      exact hI.2.2.1 nf (mem_of_mem_dedupByKey nodeKey hnf)
    have hnt' : (e.toId, nt) ∈ (wiringState proj fps).byId := by
      rw [← htid]
      exact hI.2.2.1 nt (mem_of_mem_dedupByKey nodeKey hnt)
    have hvfeq : vf = nf := entries_eq_of_nodup hI.1.2 hvf hnf'
    have hvteq : vt = nt := entries_eq_of_nodup hI.1.2 hvt hnt'
    rw [hcfeq, hvfeq, hvteq]

/-- **C2** witness: the cross-file call edge of the two-file example. -/
theorem C2_crossFile_witness :
    exDirE1.crossFile =
      decide (simplifyPath exDirN2.filePath ≠ simplifyPath exDirN0.filePath) :=
  (C2_crossFile_flag exDirProj exDirPaths (by decide)).1 exDirE1 (by decide)
    exDirN2 (by decide) exDirN0 (by decide) (by decide) (by decide)

/-- **C7** counterexample: in the wiring example, `AppModule` lists the
module class `BModule` among its `controllers`; the emitted containment edge
targets the module node, whose role is `module` — so "the target node's role
is never `module`" is false. -/
theorem C7_counterexample_module_target :
    ({ fromId := moduleNodeId "/src/app.ts" (some "AppModule")
       toId := classNodeId "/src/app.ts" (some "BModule")
       crossFile := false } : GraphEdge) ∈
        (analyzeWiringGraph exWirProj exWirPaths).edges ∧
    exWirC1 ∈ exWirM0.controllers ∧
    classNodeId exWirC1.filePath exWirC1.cls.name? =
      classNodeId "/src/app.ts" (some "BModule") ∧
    ((analyzeWiringGraph exWirProj exWirPaths).nodes.filter
      (fun n => n.id == classNodeId "/src/app.ts" (some "BModule"))).map
        (·.role?) = [some "module"] :=
  ⟨by decide, by decide, by decide, by decide⟩

/-- **C7** (amended): every class listed in a module's `controllers` or
`providers` metadata has a node in the returned wiring graph at its class
node id, whose role is one of module, controller, service, provider; the
role can be `module` exactly when the listed class's node id already denotes
a module node of the graph (as in the counterexample), otherwise `ensureNode`
assigns controller/service/provider. -/
theorem C7_containment_targets :
    ∀ (proj : ProjectM) (fps : List String), cleanProject proj = true →
      ∀ m ∈ (scanModules proj fps).modules, ∀ c ∈ m.controllers ++ m.providers,
        ∃ n ∈ (analyzeWiringGraph proj fps).nodes,
          n.id = classNodeId c.filePath c.cls.name? ∧
          (n.role? = some "module" ∨ n.role? = some "controller" ∨
            n.role? = some "service" ∨ n.role? = some "provider") := by
  intro proj fps hcl m hm c hc
  obtain ⟨hI, hcov, hhasAll⟩ := wiring_st_facts fps hcl
  have hhas := hhasAll m hm c hc
  obtain ⟨kv, hkv, hk1⟩ := jsMapHas_true_iff.mp hhas
  have hval := hcov kv hkv
  obtain ⟨y, hy, hkey⟩ := exists_mem_dedupByKey nodeKey hval
  have hyid : y.id = kv.2.id := hkey
  have hkvid : kv.2.id = kv.1 := (hI.1.1 kv hkv).1
  refine ⟨y, ?_, ?_, ?_⟩
  · rw [analyzeWiringGraph_nodes_eq]
    exact hy
  · rw [hyid, hkvid, hk1]
  · have hyn : y ∈ (wiringState proj fps).nodes := mem_of_mem_dedupByKey _ hy
    have hyent := hI.2.2.1 y hyn
    exact (hI.1.1 _ hyent).2.2

/-- **C7** witness: the containment-target guarantee evaluated on the
wiring example at the `BModule` reference. -/
theorem C7_containment_witness :
    ∃ n ∈ (analyzeWiringGraph exWirProj exWirPaths).nodes,
      n.id = classNodeId exWirC1.filePath exWirC1.cls.name? ∧
      (n.role? = some "module" ∨ n.role? = some "controller" ∨
        n.role? = some "service" ∨ n.role? = some "provider") :=
  C7_containment_targets exWirProj exWirPaths (by decide) exWirM0 (by decide)
    exWirC1 (by decide)

/-- **C10**: edge-endpoint closure — every edge of either returned graph has
both endpoints among the returned nodes' ids (stated for models with clean
declared names). -/
theorem C10_edge_endpoint_closure :
    ∀ (proj : ProjectM) (fps : List String), cleanProject proj = true →
      (∀ e ∈ (analyzeDirectoryGraph proj fps).edges,
        (∃ n ∈ (analyzeDirectoryGraph proj fps).nodes, n.id = e.fromId) ∧
        (∃ n ∈ (analyzeDirectoryGraph proj fps).nodes, n.id = e.toId)) ∧
      (∀ e ∈ (analyzeWiringGraph proj fps).edges,
        (∃ n ∈ (analyzeWiringGraph proj fps).nodes, n.id = e.fromId) ∧
        (∃ n ∈ (analyzeWiringGraph proj fps).nodes, n.id = e.toId)) := by
  intro proj fps hcl
  constructor
  · intro e he
    rw [analyzeDirectoryGraph_edges_eq] at he
    obtain ⟨caller, callee, hcm, hcem, hne, hE⟩ :=
      mem_callEdges (mem_of_mem_dedupByKey edgeKey he)
    subst hE
    constructor
    · obtain ⟨y, hy, hkey⟩ := exists_mem_dedupByKey nodeKey
        (show nodeOfCallable caller ∈
            (collectCallables proj fps).map nodeOfCallable from
          List.mem_map.mpr ⟨caller, hcm, rfl⟩)
      exact ⟨y, by rw [analyzeDirectoryGraph_nodes_eq]; exact hy, hkey⟩
    · obtain ⟨y, hy, hkey⟩ := exists_mem_dedupByKey nodeKey
        (show nodeOfCallable callee ∈
            (collectCallables proj fps).map nodeOfCallable from
          List.mem_map.mpr ⟨callee, hcem, rfl⟩)
      exact ⟨y, by rw [analyzeDirectoryGraph_nodes_eq]; exact hy, hkey⟩
  · intro e he
    obtain ⟨vf, vt, hvf, hvt, _⟩ := analyzeWiringGraph_edgeOk hcl he
    obtain ⟨hI, hcov, _⟩ := wiring_st_facts fps hcl
    constructor
    · obtain ⟨y, hy, hkey⟩ := exists_mem_dedupByKey nodeKey (hcov _ hvf)
      refine ⟨y, by rw [analyzeWiringGraph_nodes_eq]; exact hy, ?_⟩
      have : vf.id = e.fromId := (hI.1.1 _ hvf).1
      rw [← this]
      exact hkey
    · obtain ⟨y, hy, hkey⟩ := exists_mem_dedupByKey nodeKey (hcov _ hvt)
      refine ⟨y, by rw [analyzeWiringGraph_nodes_eq]; exact hy, ?_⟩
      have : vt.id = e.toId := (hI.1.1 _ hvt).1
      rw [← this]
      exact hkey

/-- **C10** witness: endpoint closure evaluated on both example graphs. -/
theorem C10_closure_witness :
    (∃ n ∈ (analyzeDirectoryGraph exDirProj exDirPaths).nodes,
      n.id = exDirE1.fromId) ∧
    (∃ n ∈ (analyzeWiringGraph exWirProj exWirPaths).nodes,
      n.id = exWirE3.fromId) :=
  ⟨((C10_edge_endpoint_closure exDirProj exDirPaths (by decide)).1 exDirE1
      (by decide)).1,
    ((C10_edge_endpoint_closure exWirProj exWirPaths (by decide)).2 exWirE3
      (by decide)).1⟩

end TsViz
